import Mathlib

/-!
Verification of the rememo memoization engine.

Shallow embedding of `src/rememo/memoizer.py`, `src/rememo/templates.py`,
`src/rememo/templates/lru.py` and `src/rememo/templates/shared.py`.

Python dictionaries are modelled as association lists (`dget`/`dset`/`ddel`
mirror `d[k]`, `d[k] = v`, `del d[k]`); `collections.deque` is a `List`;
function identities, argument values and keyword names are `Nat`;
`pickle.dumps` — treated by the specification as an opaque injective
serializer — is modelled as the identity, so a canonical key is the
(args, kwargs) pair itself.  Each memoizer state carries a ghost `calls`
log recording every actual invocation of an underlying function
(the "external call counter" of the specification).
-/

set_option synthInstance.maxSize 1024

namespace Rememo

/-! ## Association-list dictionaries (Python `dict`) -/

/-- `d[k]` as a total lookup: first binding of the key, if any. -/
def dget {α β : Type} [DecidableEq α] : List (α × β) → α → Option β
  | [], _ => none
  | p :: rest, a => if p.1 = a then some p.2 else dget rest a

/-- `d[k] = v`: replace the binding in place if the key is present, else append. -/
def dset {α β : Type} [DecidableEq α] : List (α × β) → α → β → List (α × β)
  | [], a, b => [(a, b)]
  | p :: rest, a, b => if p.1 = a then (a, b) :: rest else p :: dset rest a b

/-- `del d[k]`: drop the first binding of the key (total; callers guard with `dmem`). -/
def ddel {α β : Type} [DecidableEq α] : List (α × β) → α → List (α × β)
  | [], _ => []
  | p :: rest, a => if p.1 = a then rest else p :: ddel rest a

/-- `k in d`. -/
def dmem {α β : Type} [DecidableEq α] (l : List (α × β)) (a : α) : Bool :=
  (dget l a).isSome

theorem dget_cons {α β : Type} [DecidableEq α] (pf : α) (pv : β)
    (rest : List (α × β)) (a : α) :
    dget ((pf, pv) :: rest) a = if pf = a then some pv else dget rest a := rfl

theorem dset_cons {α β : Type} [DecidableEq α] (pf : α) (pv : β)
    (rest : List (α × β)) (a : α) (b : β) :
    dset ((pf, pv) :: rest) a b
      = if pf = a then (a, b) :: rest else (pf, pv) :: dset rest a b := rfl

theorem ddel_cons {α β : Type} [DecidableEq α] (pf : α) (pv : β)
    (rest : List (α × β)) (a : α) :
    ddel ((pf, pv) :: rest) a = if pf = a then rest else (pf, pv) :: ddel rest a := rfl

theorem dget_dset_self {α β : Type} [DecidableEq α] (l : List (α × β)) (a : α) (b : β) :
    dget (dset l a b) a = some b := by
  induction l with
  | nil => simp [dget, dset]
  | cons p rest ih =>
    by_cases h : p.1 = a
    · simp [dget, dset, h]
    · simp [dget, dset, h, ih]

theorem dget_dset_ne {α β : Type} [DecidableEq α] (l : List (α × β)) (a a' : α) (b : β)
    (h : a ≠ a') : dget (dset l a b) a' = dget l a' := by
  induction l with
  | nil => simp [dget, dset, h]
  | cons p rest ih =>
    by_cases hp : p.1 = a
    · subst hp
      simp [dget, dset, h, Ne.symm h]
    · by_cases hp' : p.1 = a'
      · simp [dget, dset, hp, hp', Ne.symm h]
      · simp [dget, dset, hp, hp', ih]

theorem dget_ddel_ne {α β : Type} [DecidableEq α] (l : List (α × β)) (a a' : α)
    (h : a ≠ a') : dget (ddel l a) a' = dget l a' := by
  induction l with
  | nil => simp [ddel]
  | cons p rest ih =>
    by_cases hp : p.1 = a
    · subst hp
      simp [ddel, dget, h, Ne.symm h]
    · by_cases hp' : p.1 = a'
      · simp [ddel, dget, hp, hp', Ne.symm h]
      · simp [ddel, dget, hp, hp', ih]

theorem mem_keys_of_dget {α β : Type} [DecidableEq α] {l : List (α × β)} {a : α} {v : β}
    (h : dget l a = some v) : a ∈ l.map Prod.fst := by
  induction l with
  | nil => simp [dget] at h
  | cons p rest ih =>
    by_cases hp : p.1 = a
    · simp [hp]
    · simp only [dget, if_neg hp] at h
      simp [ih h]

theorem dget_eq_none_of_not_mem_keys {α β : Type} [DecidableEq α] {l : List (α × β)} {a : α}
    (h : a ∉ l.map Prod.fst) : dget l a = none := by
  rcases ho : dget l a with _ | v
  · rfl
  · exact absurd (mem_keys_of_dget ho) h

theorem dget_ne_none_of_mem_keys {α β : Type} [DecidableEq α] {l : List (α × β)} {a : α}
    (h : a ∈ l.map Prod.fst) : dget l a ≠ none := by
  induction l with
  | nil => simp at h
  | cons p rest ih =>
    by_cases hp : p.1 = a
    · simp [dget, hp]
    · simp only [List.map_cons, List.mem_cons] at h
      rcases h with h | h
      · exact absurd h.symm hp
      · simp [dget, hp, ih h]

theorem dget_ddel_self {α β : Type} [DecidableEq α] (l : List (α × β)) (a : α)
    (h : (l.map Prod.fst).Nodup) : dget (ddel l a) a = none := by
  induction l with
  | nil => simp [ddel, dget]
  | cons p rest ih =>
    simp only [List.map_cons, List.nodup_cons] at h
    by_cases hp : p.1 = a
    · subst hp
      simp only [ddel, if_pos rfl]
      exact dget_eq_none_of_not_mem_keys h.1
    · simp [ddel, dget, hp, ih h.2]

theorem dset_of_not_mem {α β : Type} [DecidableEq α] (l : List (α × β)) (a : α) (b : β)
    (h : dget l a = none) : dset l a b = l ++ [(a, b)] := by
  induction l with
  | nil => simp [dset]
  | cons p rest ih =>
    by_cases hp : p.1 = a
    · simp [dget, hp] at h
    · simp only [dget, if_neg hp] at h
      simp [dset, hp, ih h]

theorem keys_dset_of_mem {α β : Type} [DecidableEq α] (l : List (α × β)) (a : α) (b : β)
    (h : dget l a ≠ none) : (dset l a b).map Prod.fst = l.map Prod.fst := by
  induction l with
  | nil => simp [dget] at h
  | cons p rest ih =>
    by_cases hp : p.1 = a
    · simp [dset, hp]
    · simp only [dget, if_neg hp] at h
      simp [dset, hp, ih h]

theorem nodup_keys_dset {α β : Type} [DecidableEq α] (l : List (α × β)) (a : α) (b : β)
    (h : (l.map Prod.fst).Nodup) : ((dset l a b).map Prod.fst).Nodup := by
  rcases ho : dget l a with _ | v
  · rw [dset_of_not_mem l a b ho]
    rw [List.map_append]
    simp only [List.map_cons, List.map_nil]
    rw [List.nodup_append]
    refine ⟨h, List.nodup_singleton a, ?_⟩
    intro x hx hy
    simp only [List.mem_singleton] at hy
    subst hy
    exact dget_ne_none_of_mem_keys hx ho
  · rw [keys_dset_of_mem l a b (by simp [ho])]
    exact h

theorem nodup_keys_ddel {α β : Type} [DecidableEq α] (l : List (α × β)) (a : α)
    (h : (l.map Prod.fst).Nodup) : ((ddel l a).map Prod.fst).Nodup := by
  induction l with
  | nil => simpa [ddel] using h
  | cons p rest ih =>
    simp only [List.map_cons, List.nodup_cons] at h
    by_cases hp : p.1 = a
    · simpa [ddel, hp] using h.2
    · simp only [ddel, if_neg hp, List.map_cons, List.nodup_cons]
      refine ⟨?_, ih h.2⟩
      intro hmem
      apply h.1
      -- keys of ddel are among keys of l
      clear ih h
      induction rest with
      | nil => simpa [ddel] using hmem
      | cons q rest' ih' =>
        by_cases hq : q.1 = a
        · simp only [ddel, if_pos hq, List.map_cons] at hmem ⊢
          exact List.mem_cons_of_mem _ hmem
        · simp only [ddel, if_neg hq, List.map_cons, List.mem_cons] at hmem ⊢
          rcases hmem with hmem | hmem
          · exact Or.inl hmem
          · exact Or.inr (ih' hmem)

/-! ## Keyword-argument sorting (`sorted(param_kwargs.items())`)

Python's `sorted` on `dict.items()` orders the pairs by key (dict keys are
distinct, so the key decides).  Modelled as an insertion sort on the name
component. -/

/-- Insert a (name, value) pair into a list sorted by name. -/
def kwInsert {β : Type} (p : Nat × β) : List (Nat × β) → List (Nat × β)
  | [] => [p]
  | q :: qs => if p.1 ≤ q.1 then p :: q :: qs else q :: kwInsert p qs

/-- `sorted(d.items())`: sort keyword pairs by keyword name. -/
def kwSort {β : Type} : List (Nat × β) → List (Nat × β)
  | [] => []
  | p :: ps => kwInsert p (kwSort ps)

theorem kwInsert_perm {β : Type} (p : Nat × β) (l : List (Nat × β)) :
    List.Perm (kwInsert p l) (p :: l) := by
  induction l with
  | nil => simp [kwInsert]
  | cons q qs ih =>
    by_cases h : p.1 ≤ q.1
    · simp [kwInsert, h]
    · simp only [kwInsert, if_neg h]
      exact (List.Perm.cons q ih).trans (List.Perm.swap p q qs)

theorem kwSort_perm {β : Type} (l : List (Nat × β)) : List.Perm (kwSort l) l := by
  induction l with
  | nil => simp [kwSort]
  | cons p ps ih =>
    exact (kwInsert_perm p (kwSort ps)).trans (List.Perm.cons p ih)

/-- Sortedness by keyword name, as a pairwise relation. -/
def KwSorted {β : Type} (l : List (Nat × β)) : Prop :=
  l.Pairwise (fun a b => a.1 ≤ b.1)

theorem kwInsert_sorted {β : Type} (p : Nat × β) (l : List (Nat × β))
    (h : KwSorted l) : KwSorted (kwInsert p l) := by
  induction l with
  | nil => simp [kwInsert, KwSorted]
  | cons q qs ih =>
    rcases (List.pairwise_cons.mp h) with ⟨hq, hqs⟩
    by_cases hle : p.1 ≤ q.1
    · simp only [kwInsert, if_pos hle]
      exact List.pairwise_cons.mpr ⟨fun b hb => by
        rcases List.mem_cons.mp hb with rfl | hb
        · exact hle
        · exact le_trans hle (hq b hb), h⟩
    · simp only [kwInsert, if_neg hle]
      refine List.pairwise_cons.mpr ⟨?_, ih hqs⟩
      intro b hb
      have hb' : b ∈ p :: qs := (kwInsert_perm p qs).mem_iff.mp hb
      rcases List.mem_cons.mp hb' with rfl | hb''
      · exact le_of_not_le hle
      · exact hq b hb''

theorem kwSort_sorted {β : Type} (l : List (Nat × β)) : KwSorted (kwSort l) := by
  induction l with
  | nil => simp [kwSort, KwSorted]
  | cons p ps ih => exact kwInsert_sorted p (kwSort ps) ih

/-- Two lists sorted by name, which are permutations of each other and whose
names are distinct, coincide. -/
theorem kwsorted_perm_nodup_eq {β : Type} :
    ∀ (l₁ l₂ : List (Nat × β)), List.Perm l₁ l₂ → KwSorted l₁ → KwSorted l₂ →
      (l₁.map Prod.fst).Nodup → l₁ = l₂
  | [], l₂, hp, _, _, _ => by simpa using hp.nil_eq
  | p :: t₁, [], hp, _, _, _ => by simpa using hp.symm.nil_eq
  | p :: t₁, q :: t₂, hp, hs₁, hs₂, hnd => by
    rw [List.map_cons, List.nodup_cons] at hnd
    have hpq : p = q := by
      have hp_mem : p ∈ q :: t₂ := hp.mem_iff.mp (List.mem_cons_self p t₁)
      have hq_mem : q ∈ p :: t₁ := hp.symm.mem_iff.mp (List.mem_cons_self q t₂)
      rcases List.mem_cons.mp hp_mem with h | hp_mem'
      · exact h
      rcases List.mem_cons.mp hq_mem with h | hq_mem'
      · exact h.symm
      -- p is minimal in the left list, q in the right; both lists share members
      have h1 : q.1 ≤ p.1 := (List.pairwise_cons.mp hs₂).1 p hp_mem'
      have h2 : p.1 ≤ q.1 := (List.pairwise_cons.mp hs₁).1 q hq_mem'
      have hkey : p.1 = q.1 := le_antisymm h2 h1
      -- but then the left list repeats the name p.1, contradicting Nodup
      have : p.1 ∈ t₁.map Prod.fst := by
        rw [hkey]
        exact List.mem_map.mpr ⟨q, hq_mem', rfl⟩
      exact absurd this hnd.1
    subst hpq
    have ht : List.Perm t₁ t₂ := hp.cons_inv
    have := kwsorted_perm_nodup_eq t₁ t₂ ht
      (List.pairwise_cons.mp hs₁).2 (List.pairwise_cons.mp hs₂).2 hnd.2
    rw [this]

/-- Permuted keyword dictionaries (distinct names) sort identically. -/
theorem kwSort_eq_of_perm {β : Type} (l₁ l₂ : List (Nat × β))
    (hperm : List.Perm l₁ l₂) (hnd : (l₁.map Prod.fst).Nodup) :
    kwSort l₁ = kwSort l₂ := by
  refine kwsorted_perm_nodup_eq _ _ ?_ (kwSort_sorted l₁) (kwSort_sorted l₂) ?_
  · exact (kwSort_perm l₁).trans (hperm.trans (kwSort_perm l₂).symm)
  · exact ((kwSort_perm l₁).map Prod.fst).nodup_iff.mpr hnd

/-! ## Arguments, canonical keys and `Memoizer.process_params`
(`src/rememo/memoizer.py`, lines 46-69) -/

/-- A call's arguments: positional values and keyword (name, value) pairs. -/
structure Args where
  pos : List Nat
  kw : List (Nat × Nat)
deriving DecidableEq, Repr

/-- A canonical key: the serialized `(param_args, param_kwargs)` pair.
`pickle.dumps` is an opaque injective serializer (spec section 1), modelled
as the identity on the pair. -/
abbrev Key := List Nat × List (Nat × Nat)

/-- `Memoizer.process_params`: sort the kwargs by name when `sort_kwargs` is
set, then serialize the `(args, kwargs)` pair. -/
def process_params (sort_kwargs : Bool) (a : Args) : Key :=
  (a.pos, if sort_kwargs then kwSort a.kw else a.kw)

/-! ## The base `Memoizer` (`src/rememo/memoizer.py`) -/

/-- The per-function result store: function identity to key-to-result dict. -/
abbrev RCache := List (Nat × List (Key × Nat))

/-- Nested lookup `results_cache[f][k]`, totalized (`none` both when `f` has
no sub-store and when the sub-store lacks `k`). -/
def dget2 (rc : RCache) (f : Nat) (k : Key) : Option Nat :=
  dget ((dget rc f).getD []) k

/-- Well-formed store: distinct function keys, distinct param keys per function.
Every store reachable from the empty one by the modelled operations satisfies
this (Python dicts cannot hold duplicate keys). -/
def WFrc (rc : RCache) : Prop :=
  (rc.map Prod.fst).Nodup ∧ ∀ p ∈ rc, ((p.2.map Prod.fst).Nodup)

instance : DecidablePred WFrc := fun rc =>
  decidable_of_iff ((rc.map Prod.fst).Nodup ∧ ∀ p ∈ rc, ((p.2.map Prod.fst).Nodup)) Iff.rfl

/-- State of a base `Memoizer`: the `results_cache` plus a ghost log of every
actual invocation of an underlying function (the external call counter). -/
structure MState where
  results_cache : RCache
  calls : List (Nat × Args)
deriving DecidableEq, Repr

/-- The freshly constructed `Memoizer` (empty `results_cache`). -/
def MState.init : MState := ⟨[], []⟩

/-- `Memoizer._call_and_add_result` (lines 71-83): invoke the function, then
store the result under the canonical key.  The invocation is recorded in the
ghost log. -/
def call_and_add_result (sk : Bool) (fsem : Nat → Args → Nat) (s : MState)
    (f : Nat) (a : Args) : MState :=
  let r := fsem f a
  let params := process_params sk a
  { results_cache := dset s.results_cache f
      (dset ((dget s.results_cache f).getD []) params r),
    calls := s.calls ++ [(f, a)] }

/-- `Memoizer.get_result` (lines 120-147): ensure a per-function sub-store
exists, canonicalize the key, compute-and-store on a miss (the base
`handle_cache_decay` is a no-op), and return the stored value. -/
def get_result (sk : Bool) (fsem : Nat → Args → Nat) (s : MState)
    (f : Nat) (a : Args) : Nat × MState :=
  let s0 := if dmem s.results_cache f then s
            else { s with results_cache := dset s.results_cache f [] }
  let params := process_params sk a
  if dmem ((dget s0.results_cache f).getD []) params then
    ((dget ((dget s0.results_cache f).getD []) params).getD 0, s0)
  else
    let s1 := call_and_add_result sk fsem s0 f a
    ((dget ((dget s1.results_cache f).getD []) params).getD 0, s1)

/-- A reference through which a cache partition can be addressed: the callable
itself plus its `__wrapped__` back-reference when the callable is a
`memoized` wrapper (`getattr(function, '__wrapped__', None)`). -/
structure FRef where
  fid : Nat
  wrapped : Option Nat
deriving DecidableEq, Repr

/-- One guarded entry deletion
(`if function in self.results_cache and params in self.results_cache[function]:
del self.results_cache[function][params]`). -/
def del_entry_step (rc : RCache) (j : Nat) (k : Key) : RCache :=
  if dmem rc j && dmem ((dget rc j).getD []) k then
    dset rc j (ddel ((dget rc j).getD []) k)
  else rc

/-- One guarded per-function-store deletion
(`if function in self.results_cache: del self.results_cache[function]`). -/
def del_func_step (rc : RCache) (j : Nat) : RCache :=
  if dmem rc j then ddel rc j else rc

/-- `Memoizer.remove_from_cache` (lines 85-106): with params, delete that
entry under the given reference and then under its `__wrapped__`
back-reference; without params, delete the whole per-function store the same
way.  Absent entries are skipped silently (`wrapped = none` models Python's
`getattr(function, '__wrapped__', None)` returning `None`, and
`None in self.results_cache` is simply false for a local dict). -/
def remove_from_cache (s : MState) (r : FRef) (params : Option Key) : MState :=
  match params with
  | some p =>
    let rc1 := del_entry_step s.results_cache r.fid p
    { s with results_cache :=
        match r.wrapped with
        | none => rc1
        | some w => del_entry_step rc1 w p }
  | none =>
    let rc1 := del_func_step s.results_cache r.fid
    { s with results_cache :=
        match r.wrapped with
        | none => rc1
        | some w => del_func_step rc1 w }

/-- Run a sequence of `get_result` calls, threading the state. -/
def run_calls (sk : Bool) (fsem : Nat → Args → Nat) (s : MState) :
    List (Nat × Args) → MState
  | [] => s
  | c :: cs => run_calls sk fsem (get_result sk fsem s c.1 c.2).2 cs

/-! ### Hit / miss behaviour of the base `get_result` -/

theorem dmem_iff {α β : Type} [DecidableEq α] (l : List (α × β)) (a : α) :
    dmem l a = true ↔ dget l a ≠ none := by
  unfold dmem
  rcases dget l a with _ | v <;> simp

theorem get_result_hit (sk : Bool) (fsem : Nat → Args → Nat) (s : MState)
    (f : Nat) (a : Args) (v : Nat)
    (h : dget2 s.results_cache f (process_params sk a) = some v) :
    get_result sk fsem s f a = (v, s) := by
  unfold get_result
  rcases hf : dget s.results_cache f with _ | sub
  · simp [dget2, hf, dget] at h
  · have hm : dmem s.results_cache f = true := by simp [dmem, hf]
    simp only [dget2, hf, Option.getD_some] at h
    simp [hm, hf, dmem, h]

theorem get_result_miss (sk : Bool) (fsem : Nat → Args → Nat) (s : MState)
    (f : Nat) (a : Args)
    (h : dget2 s.results_cache f (process_params sk a) = none) :
    get_result sk fsem s f a =
      (fsem f a,
       { results_cache :=
           dset (if dmem s.results_cache f then s.results_cache
                 else dset s.results_cache f [])
             f (dset ((dget (if dmem s.results_cache f then s.results_cache
                             else dset s.results_cache f []) f).getD [])
                  (process_params sk a) (fsem f a)),
         calls := s.calls ++ [(f, a)] }) := by
  unfold get_result call_and_add_result
  rcases hf : dget s.results_cache f with _ | sub
  · have hm : dmem s.results_cache f = false := by simp [dmem, hf]
    simp only [hm, Bool.false_eq_true, if_false, hf]
    have hsub : dget (dset s.results_cache f ([] : List (Key × Nat))) f = some [] :=
      dget_dset_self _ _ _
    simp [hsub, dmem, dget, dget_dset_self]
  · have hm : dmem s.results_cache f = true := by simp [dmem, hf]
    simp only [dget2, hf, Option.getD_some] at h
    have hmem : dmem sub (process_params sk a) = false := by simp [dmem, h]
    simp [hm, hf, hmem, dget_dset_self]

theorem mem_of_dget {α β : Type} [DecidableEq α] {l : List (α × β)} {a : α} {b : β}
    (h : dget l a = some b) : (a, b) ∈ l := by
  induction l with
  | nil => simp [dget] at h
  | cons p rest ih =>
    by_cases hp : p.1 = a
    · subst hp
      simp only [dget, if_pos rfl] at h
      cases h
      exact List.mem_cons_self _ _
    · simp only [dget, if_neg hp] at h
      exact List.mem_cons_of_mem _ (ih h)

theorem mem_dset {α β : Type} [DecidableEq α] {l : List (α × β)} {a : α} {b : β} {p : α × β}
    (h : p ∈ dset l a b) : p = (a, b) ∨ p ∈ l := by
  induction l with
  | nil => simpa [dset] using h
  | cons q rest ih =>
    by_cases hq : q.1 = a
    · simp only [dset, if_pos hq, List.mem_cons] at h
      rcases h with h | h
      · exact Or.inl h
      · exact Or.inr (List.mem_cons_of_mem _ h)
    · simp only [dset, if_neg hq, List.mem_cons] at h
      rcases h with h | h
      · exact Or.inr (by simp [h])
      · rcases ih h with h | h
        · exact Or.inl h
        · exact Or.inr (List.mem_cons_of_mem _ h)

theorem mem_ddel {α β : Type} [DecidableEq α] {l : List (α × β)} {a : α} {p : α × β}
    (h : p ∈ ddel l a) : p ∈ l := by
  induction l with
  | nil => simpa [ddel] using h
  | cons q rest ih =>
    by_cases hq : q.1 = a
    · simp only [ddel, if_pos hq] at h
      exact List.mem_cons_of_mem _ h
    · simp only [ddel, if_neg hq, List.mem_cons] at h
      rcases h with h | h
      · simp [h]
      · exact List.mem_cons_of_mem _ (ih h)

theorem WFrc_sub_nodup {rc : RCache} {f : Nat} {sub : List (Key × Nat)}
    (hwf : WFrc rc) (h : dget rc f = some sub) : (sub.map Prod.fst).Nodup :=
  hwf.2 (f, sub) (mem_of_dget h)

theorem WFrc_dset {rc : RCache} {f : Nat} {sub : List (Key × Nat)}
    (hwf : WFrc rc) (hsub : (sub.map Prod.fst).Nodup) : WFrc (dset rc f sub) := by
  refine ⟨nodup_keys_dset rc f sub hwf.1, ?_⟩
  intro p hp
  rcases mem_dset hp with h | h
  · subst h
    exact hsub
  · exact hwf.2 p h

theorem WFrc_dset_ddel {rc : RCache} {f : Nat} {sub : List (Key × Nat)} {k : Key}
    (hwf : WFrc rc) (h : dget rc f = some sub) : WFrc (dset rc f (ddel sub k)) :=
  WFrc_dset hwf (nodup_keys_ddel sub k (WFrc_sub_nodup hwf h))

theorem dget2_dset_ddel_other {rc : RCache} {j : Nat} {sub : List (Key × Nat)} {k : Key}
    (g : Nat) (k' : Key) (hj : dget rc j = some sub) (h : g ≠ j ∨ k' ≠ k) :
    dget2 (dset rc j (ddel sub k)) g k' = dget2 rc g k' := by
  by_cases hg : g = j
  · subst hg
    rcases h with h | h
    · exact absurd rfl h
    · simp only [dget2, dget_dset_self, hj, Option.getD_some]
      exact dget_ddel_ne sub k k' (Ne.symm h)
  · simp only [dget2, dget_dset_ne rc j g _ (fun he => hg he.symm)]

theorem dget2_dset_ddel_self {rc : RCache} {j : Nat} {sub : List (Key × Nat)} {k : Key}
    (hwf : WFrc rc) (hj : dget rc j = some sub) :
    dget2 (dset rc j (ddel sub k)) j k = none := by
  simp only [dget2, dget_dset_self, Option.getD_some]
  exact dget_ddel_self sub k (WFrc_sub_nodup hwf hj)

theorem del_entry_step_wf {rc : RCache} (j : Nat) (k : Key) (hwf : WFrc rc) :
    WFrc (del_entry_step rc j k) := by
  unfold del_entry_step
  by_cases hc : dmem rc j && dmem ((dget rc j).getD []) k
  · rw [if_pos hc]
    rcases hf : dget rc j with _ | sub
    · simp [dmem, hf] at hc
    · simp only [hf, Option.getD_some]
      exact WFrc_dset_ddel hwf hf
  · rw [if_neg hc]
    exact hwf

theorem del_entry_step_self {rc : RCache} (j : Nat) (k : Key) (hwf : WFrc rc) :
    dget2 (del_entry_step rc j k) j k = none := by
  unfold del_entry_step
  by_cases hc : dmem rc j && dmem ((dget rc j).getD []) k
  · rw [if_pos hc]
    rcases hf : dget rc j with _ | sub
    · simp [dmem, hf] at hc
    · simp only [hf, Option.getD_some]
      exact dget2_dset_ddel_self hwf hf
  · rw [if_neg hc]
    rcases hf : dget rc j with _ | sub
    · simp [dget2, hf, dget]
    · simp only [dmem, hf, Option.isSome_some, Bool.true_and, Option.getD_some] at hc
      simp only [dget2, hf, Option.getD_some]
      simpa [dmem] using hc

theorem del_entry_step_other {rc : RCache} (j : Nat) (k : Key) (g : Nat) (k' : Key)
    (h : g ≠ j ∨ k' ≠ k) :
    dget2 (del_entry_step rc j k) g k' = dget2 rc g k' := by
  unfold del_entry_step
  by_cases hc : dmem rc j && dmem ((dget rc j).getD []) k
  · rw [if_pos hc]
    rcases hf : dget rc j with _ | sub
    · simp [dmem, hf] at hc
    · simp only [hf, Option.getD_some]
      exact dget2_dset_ddel_other g k' hf h
  · rw [if_neg hc]

/-! ### Claim theorems C1, C8, C9 -/

/-- C1: for a pure function `f` and fixed arguments `a`, the first
`get_result(f, a)` invokes `f` (the ghost call log grows by exactly one
entry) and stores its result; every run of further identical calls leaves
the state — and hence the call log — unchanged, and each returns the
identical stored value. -/
theorem C1_memoize_invokes_once (sk : Bool) (fsem : Nat → Args → Nat) (s : MState)
    (f : Nat) (a : Args)
    (h : dget2 s.results_cache f (process_params sk a) = none) :
    (get_result sk fsem s f a).1 = fsem f a ∧
    (get_result sk fsem s f a).2.calls = s.calls ++ [(f, a)] ∧
    dget2 (get_result sk fsem s f a).2.results_cache f (process_params sk a)
      = some (fsem f a) ∧
    (∀ n, run_calls sk fsem (get_result sk fsem s f a).2 (List.replicate n (f, a))
      = (get_result sk fsem s f a).2) ∧
    (get_result sk fsem (get_result sk fsem s f a).2 f a).1 = fsem f a := by
  have hm := get_result_miss sk fsem s f a h
  have hpost : dget2 (get_result sk fsem s f a).2.results_cache f (process_params sk a)
      = some (fsem f a) := by
    rw [hm]
    simp [dget2, dget_dset_self]
  refine ⟨by rw [hm], by rw [hm], hpost, ?_, ?_⟩
  · intro n
    induction n with
    | zero => simp [run_calls]
    | succ m ih =>
      simp only [List.replicate_succ, run_calls]
      rw [get_result_hit sk fsem _ f a (fsem f a) hpost]
      exact ih
  · rw [get_result_hit sk fsem _ f a (fsem f a) hpost]

/-- Witness for C1 at the specification's scenario `f(v) = v + 2`, `f(5)`. -/
theorem C1_memoize_invokes_once_witness :
    dget2 MState.init.results_cache 0 (process_params true ⟨[5], []⟩) = none ∧
    ((get_result true (fun _ a => a.pos.headD 0 + 2) MState.init 0 ⟨[5], []⟩).1
       = (fun _ (a : Args) => a.pos.headD 0 + 2) 0 ⟨[5], []⟩ ∧
     (get_result true (fun _ a => a.pos.headD 0 + 2) MState.init 0 ⟨[5], []⟩).2.calls
       = MState.init.calls ++ [(0, ⟨[5], []⟩)] ∧
     dget2 (get_result true (fun _ a => a.pos.headD 0 + 2) MState.init 0 ⟨[5], []⟩).2.results_cache
        0 (process_params true ⟨[5], []⟩) = some ((fun _ (a : Args) => a.pos.headD 0 + 2) 0 ⟨[5], []⟩) ∧
     (∀ n, run_calls true (fun _ a => a.pos.headD 0 + 2)
        (get_result true (fun _ a => a.pos.headD 0 + 2) MState.init 0 ⟨[5], []⟩).2
        (List.replicate n (0, ⟨[5], []⟩))
       = (get_result true (fun _ a => a.pos.headD 0 + 2) MState.init 0 ⟨[5], []⟩).2) ∧
     (get_result true (fun _ a => a.pos.headD 0 + 2)
        (get_result true (fun _ a => a.pos.headD 0 + 2) MState.init 0 ⟨[5], []⟩).2 0 ⟨[5], []⟩).1
       = (fun _ (a : Args) => a.pos.headD 0 + 2) 0 ⟨[5], []⟩) :=
  ⟨by decide, C1_memoize_invokes_once true (fun _ a => a.pos.headD 0 + 2)
      MState.init 0 ⟨[5], []⟩ (by decide)⟩

/-- C8: with `sort_kwargs = True`, permuted keyword dictionaries (distinct
names) canonicalize to one key, so a call with one ordering hits the entry
cached under the other; with normalization disabled the keys can differ. -/
theorem C8_kwarg_order_insensitive (pos : List Nat) (kw₁ kw₂ : List (Nat × Nat))
    (hperm : List.Perm kw₁ kw₂) (hnd : (kw₁.map Prod.fst).Nodup) :
    process_params true ⟨pos, kw₁⟩ = process_params true ⟨pos, kw₂⟩ ∧
    (∀ (fsem : Nat → Args → Nat) (s : MState) (f v : Nat),
        dget2 s.results_cache f (process_params true ⟨pos, kw₁⟩) = some v →
        get_result true fsem s f ⟨pos, kw₂⟩ = (v, s)) ∧
    process_params false ⟨[], [(0, 0), (1, 1)]⟩ ≠ process_params false ⟨[], [(1, 1), (0, 0)]⟩ := by
  have hk : process_params true ⟨pos, kw₁⟩ = process_params true ⟨pos, kw₂⟩ := by
    simp [process_params, kwSort_eq_of_perm kw₁ kw₂ hperm hnd]
  refine ⟨hk, ?_, by decide⟩
  intro fsem s f v hv
  exact get_result_hit true fsem s f ⟨pos, kw₂⟩ v (hk ▸ hv)

/-- Witness for C8 at the specification's example `x=1, y=2` vs `y=2, x=1`. -/
theorem C8_kwarg_order_insensitive_witness :
    List.Perm [(0, 1), (1, 2)] [(1, 2), (0, 1)] ∧
    (([(0, 1), (1, 2)] : List (Nat × Nat)).map Prod.fst).Nodup ∧
    (process_params true ⟨[], [(0, 1), (1, 2)]⟩ = process_params true ⟨[], [(1, 2), (0, 1)]⟩ ∧
     (∀ (fsem : Nat → Args → Nat) (s : MState) (f v : Nat),
        dget2 s.results_cache f (process_params true ⟨[], [(0, 1), (1, 2)]⟩) = some v →
        get_result true fsem s f ⟨[], [(1, 2), (0, 1)]⟩ = (v, s)) ∧
     process_params false ⟨[], [(0, 0), (1, 1)]⟩ ≠ process_params false ⟨[], [(1, 1), (0, 0)]⟩) :=
  ⟨by decide, by decide,
   C8_kwarg_order_insensitive [] [(0, 1), (1, 2)] [(1, 2), (0, 1)] (by decide) (by decide)⟩

/-- C9: `remove_from_cache(f, params)` deletes exactly the `(f, params)`
entry, under the given reference and under its unwrapped back-reference; all
other entries keep their values, the call log is untouched, a subsequent
`get_result(f, params)` recomputes (invoking the function), and a
`get_result` for any other entry still hits without recomputation. -/
theorem C9_remove_deletes_exactly (s : MState) (r : FRef) (k : Key)
    (hwf : WFrc s.results_cache) :
    dget2 (remove_from_cache s r (some k)).results_cache r.fid k = none ∧
    (∀ w, r.wrapped = some w →
       dget2 (remove_from_cache s r (some k)).results_cache w k = none) ∧
    (∀ g k', (g ≠ r.fid ∧ r.wrapped ≠ some g) ∨ k' ≠ k →
       dget2 (remove_from_cache s r (some k)).results_cache g k'
         = dget2 s.results_cache g k') ∧
    (remove_from_cache s r (some k)).calls = s.calls ∧
    (∀ (sk : Bool) (fsem : Nat → Args → Nat) (a : Args), process_params sk a = k →
       (get_result sk fsem (remove_from_cache s r (some k)) r.fid a).1 = fsem r.fid a ∧
       (get_result sk fsem (remove_from_cache s r (some k)) r.fid a).2.calls
         = s.calls ++ [(r.fid, a)]) ∧
    (∀ (sk : Bool) (fsem : Nat → Args → Nat) (g : Nat) (a : Args) (v : Nat),
       ((g ≠ r.fid ∧ r.wrapped ≠ some g) ∨ process_params sk a ≠ k) →
       dget2 s.results_cache g (process_params sk a) = some v →
       get_result sk fsem (remove_from_cache s r (some k)) g a
         = (v, remove_from_cache s r (some k))) := by
  classical
  have hshape : (remove_from_cache s r (some k)).results_cache =
      (match r.wrapped with
       | none => del_entry_step s.results_cache r.fid k
       | some w => del_entry_step (del_entry_step s.results_cache r.fid k) w k) := by
    rcases hw : r.wrapped with _ | w <;> simp only [remove_from_cache, hw]
  have hcalls : (remove_from_cache s r (some k)).calls = s.calls := by
    rcases hw : r.wrapped with _ | w <;> simp only [remove_from_cache, hw]
  have hwf1 : WFrc (del_entry_step s.results_cache r.fid k) :=
    del_entry_step_wf r.fid k hwf
  have hfidnone : dget2 (remove_from_cache s r (some k)).results_cache r.fid k = none := by
    rw [hshape]
    rcases r.wrapped with _ | w
    · exact del_entry_step_self r.fid k hwf
    · by_cases hwe : r.fid = w
      · subst hwe
        exact del_entry_step_self r.fid k hwf1
      · rw [del_entry_step_other w k r.fid k (Or.inl hwe)]
        exact del_entry_step_self r.fid k hwf
  have h2w : ∀ w, r.wrapped = some w →
      dget2 (remove_from_cache s r (some k)).results_cache w k = none := by
    intro w hw
    rw [hshape, hw]
    exact del_entry_step_self w k hwf1
  have hframe : ∀ g k', (g ≠ r.fid ∧ r.wrapped ≠ some g) ∨ k' ≠ k →
      dget2 (remove_from_cache s r (some k)).results_cache g k'
        = dget2 s.results_cache g k' := by
    intro g k' hg
    rw [hshape]
    rcases hw : r.wrapped with _ | w
    · refine del_entry_step_other r.fid k g k' ?_
      rcases hg with ⟨hg1, _⟩ | hg
      · exact Or.inl hg1
      · exact Or.inr hg
    · have hg' : (g ≠ r.fid ∧ g ≠ w) ∨ k' ≠ k := by
        rcases hg with ⟨hg1, hg2⟩ | hg
        · refine Or.inl ⟨hg1, ?_⟩
          intro he
          exact hg2 (by rw [hw, he])
        · exact Or.inr hg
      have hA : g ≠ w ∨ k' ≠ k := by
        rcases hg' with ⟨_, h2⟩ | h
        · exact Or.inl h2
        · exact Or.inr h
      have hB : g ≠ r.fid ∨ k' ≠ k := by
        rcases hg' with ⟨h1, _⟩ | h
        · exact Or.inl h1
        · exact Or.inr h
      rw [del_entry_step_other w k g k' hA]
      exact del_entry_step_other r.fid k g k' hB
  refine ⟨hfidnone, h2w, hframe, hcalls, ?_, ?_⟩
  · intro sk fsem a hk
    have hmiss : dget2 (remove_from_cache s r (some k)).results_cache r.fid
        (process_params sk a) = none := by
      rw [hk]
      exact hfidnone
    have hmr := get_result_miss sk fsem (remove_from_cache s r (some k)) r.fid a hmiss
    constructor
    · rw [hmr]
    · rw [hmr]
      simp [hcalls]
  · intro sk fsem g a v hg hv
    have hhit : dget2 (remove_from_cache s r (some k)).results_cache g
        (process_params sk a) = some v := by
      rw [hframe g (process_params sk a) hg]
      exact hv
    exact get_result_hit sk fsem _ g a v hhit

/-- Witness for C9: a two-function, two-key cache; removal through the
wrapper reference with back-reference to function 5. -/
theorem C9_remove_deletes_exactly_witness :
    WFrc (⟨[(5, [(([1], []), 11), (([2], []), 12)]), (6, [(([1], []), 13)])], []⟩ : MState).results_cache ∧
    (dget2 (remove_from_cache ⟨[(5, [(([1], []), 11), (([2], []), 12)]), (6, [(([1], []), 13)])], []⟩
        ⟨9, some 5⟩ (some ([1], []))).results_cache 9 ([1], []) = none ∧
     (∀ w, (⟨9, some 5⟩ : FRef).wrapped = some w →
        dget2 (remove_from_cache ⟨[(5, [(([1], []), 11), (([2], []), 12)]), (6, [(([1], []), 13)])], []⟩
          ⟨9, some 5⟩ (some ([1], []))).results_cache w ([1], []) = none) ∧
     (∀ g k', (g ≠ (⟨9, some 5⟩ : FRef).fid ∧ (⟨9, some 5⟩ : FRef).wrapped ≠ some g) ∨ k' ≠ ([1], []) →
        dget2 (remove_from_cache ⟨[(5, [(([1], []), 11), (([2], []), 12)]), (6, [(([1], []), 13)])], []⟩
          ⟨9, some 5⟩ (some ([1], []))).results_cache g k'
          = dget2 (⟨[(5, [(([1], []), 11), (([2], []), 12)]), (6, [(([1], []), 13)])], []⟩ : MState).results_cache g k') ∧
     (remove_from_cache ⟨[(5, [(([1], []), 11), (([2], []), 12)]), (6, [(([1], []), 13)])], []⟩
        ⟨9, some 5⟩ (some ([1], []))).calls
       = (⟨[(5, [(([1], []), 11), (([2], []), 12)]), (6, [(([1], []), 13)])], []⟩ : MState).calls ∧
     (∀ (sk : Bool) (fsem : Nat → Args → Nat) (a : Args), process_params sk a = ([1], []) →
        (get_result sk fsem (remove_from_cache ⟨[(5, [(([1], []), 11), (([2], []), 12)]), (6, [(([1], []), 13)])], []⟩
           ⟨9, some 5⟩ (some ([1], []))) 9 a).1 = fsem 9 a ∧
        (get_result sk fsem (remove_from_cache ⟨[(5, [(([1], []), 11), (([2], []), 12)]), (6, [(([1], []), 13)])], []⟩
           ⟨9, some 5⟩ (some ([1], []))) 9 a).2.calls
          = (⟨[(5, [(([1], []), 11), (([2], []), 12)]), (6, [(([1], []), 13)])], []⟩ : MState).calls ++ [(9, a)]) ∧
     (∀ (sk : Bool) (fsem : Nat → Args → Nat) (g : Nat) (a : Args) (v : Nat),
        ((g ≠ (⟨9, some 5⟩ : FRef).fid ∧ (⟨9, some 5⟩ : FRef).wrapped ≠ some g) ∨ process_params sk a ≠ ([1], [])) →
        dget2 (⟨[(5, [(([1], []), 11), (([2], []), 12)]), (6, [(([1], []), 13)])], []⟩ : MState).results_cache g
          (process_params sk a) = some v →
        get_result sk fsem (remove_from_cache ⟨[(5, [(([1], []), 11), (([2], []), 12)]), (6, [(([1], []), 13)])], []⟩
           ⟨9, some 5⟩ (some ([1], []))) g a
          = (v, remove_from_cache ⟨[(5, [(([1], []), 11), (([2], []), 12)]), (6, [(([1], []), 13)])], []⟩
              ⟨9, some 5⟩ (some ([1], []))))) :=
  ⟨by decide,
   C9_remove_deletes_exactly ⟨[(5, [(([1], []), 11), (([2], []), 12)]), (6, [(([1], []), 13)])], []⟩
     ⟨9, some 5⟩ ([1], []) (by decide)⟩

/-! ## `LRUCache` (`src/rememo/templates/lru.py`) -/

/-- State of an `LRUCache` memoizer: the inherited `results_cache` and ghost
call log, plus the recency `cache_queue` (a `deque`, least-recently-used
first). -/
structure LState where
  results_cache : RCache
  calls : List (Nat × Args)
  cache_queue : List (Nat × Key)
deriving DecidableEq, Repr

/-- A freshly constructed `LRUCache`. -/
def LState.init : LState := ⟨[], [], []⟩

/-- `deque.remove(value)`: drop the first occurrence (callers guarantee
presence; Python raises `ValueError` otherwise). -/
def qremove {α : Type} [DecidableEq α] : List α → α → List α
  | [], _ => []
  | y :: ys, x => if y = x then ys else y :: qremove ys x

theorem qremove_perm {α : Type} [DecidableEq α] {l : List α} {x : α} (h : x ∈ l) :
    List.Perm l (x :: qremove l x) := by
  induction l with
  | nil => simp at h
  | cons y ys ih =>
    by_cases hy : y = x
    · subst hy
      simp [qremove]
    · rcases List.mem_cons.mp h with h | h
      · exact absurd h.symm hy
      · simp only [qremove, if_neg hy]
        exact ((ih h).cons y).trans (List.Perm.swap x y _)

theorem length_qremove {α : Type} [DecidableEq α] {l : List α} {x : α} (h : x ∈ l) :
    (qremove l x).length + 1 = l.length := by
  have := (qremove_perm h).length_eq
  simpa using this.symm

theorem mem_qremove {α : Type} [DecidableEq α] {l : List α} {x y : α}
    (h : y ∈ qremove l x) : y ∈ l := by
  induction l with
  | nil => simpa [qremove] using h
  | cons z zs ih =>
    by_cases hz : z = x
    · subst hz
      simp only [qremove, if_pos rfl] at h
      exact List.mem_cons_of_mem _ h
    · simp only [qremove, if_neg hz] at h
      rcases List.mem_cons.mp h with h | h
      · simp [h]
      · exact List.mem_cons_of_mem _ (ih h)

theorem not_mem_qremove_self {α : Type} [DecidableEq α] {l : List α} {x : α}
    (hnd : l.Nodup) : x ∉ qremove l x := by
  induction l with
  | nil => simp [qremove]
  | cons z zs ih =>
    rw [List.nodup_cons] at hnd
    by_cases hz : z = x
    · subst hz
      simp only [qremove, if_pos rfl]
      exact hnd.1
    · simp only [qremove, if_neg hz]
      intro hmem
      rcases List.mem_cons.mp hmem with h | h
      · exact hz h.symm
      · exact ih hnd.2 h

/-- `LRUCache.handle_cache_decay` (lru.py lines 22-32): on a hit remove the
pair from the queue, then append it; if the queue is over capacity, pop the
least-recently-used pair and delete it from the `results_cache`. -/
def lru_decay (max : Nat) (s : LState) (f : Nat) (params : Key)
    (was_hit : Bool) : LState :=
  let fp := (f, params)
  let q1 := (if was_hit then qremove s.cache_queue fp else s.cache_queue) ++ [fp]
  if max < q1.length then
    match q1 with
    | [] => { s with cache_queue := [] }
    | (oldf, oldk) :: rest =>
      { s with
        cache_queue := rest,
        results_cache :=
          (dset s.results_cache oldf
            (ddel ((dget s.results_cache oldf).getD []) oldk)) }
  else { s with cache_queue := q1 }

/-- `Memoizer._call_and_add_result` running on an `LRUCache` state. -/
def lru_call_and_add_result (sk : Bool) (fsem : Nat → Args → Nat) (s : LState)
    (f : Nat) (a : Args) : LState :=
  let r := fsem f a
  let params := process_params sk a
  { s with
    results_cache :=
      (dset s.results_cache f
        (dset ((dget s.results_cache f).getD []) params r)),
    calls := s.calls ++ [(f, a)] }

/-- `Memoizer.get_result` running on an `LRUCache` (inherited body, with the
overridden `handle_cache_decay` fired after a miss-insert or a hit). -/
def lru_get_result (max : Nat) (sk : Bool) (fsem : Nat → Args → Nat)
    (s : LState) (f : Nat) (a : Args) : Nat × LState :=
  let s0 := if dmem s.results_cache f then s
            else { s with results_cache := dset s.results_cache f [] }
  let params := process_params sk a
  if dmem ((dget s0.results_cache f).getD []) params then
    let s1 := lru_decay max s0 f params true
    ((dget ((dget s1.results_cache f).getD []) params).getD 0, s1)
  else
    let s1 := lru_call_and_add_result sk fsem s0 f a
    let s2 := lru_decay max s1 f params false
    ((dget ((dget s2.results_cache f).getD []) params).getD 0, s2)

/-- `Memoizer.remove_from_cache` as inherited by `LRUCache`: it manipulates
only `results_cache` and never touches `cache_queue`. -/
def lru_remove_from_cache (s : LState) (r : FRef) (params : Option Key) : LState :=
  match params with
  | some p =>
    let rc1 := del_entry_step s.results_cache r.fid p
    { s with results_cache :=
        match r.wrapped with
        | none => rc1
        | some w => del_entry_step rc1 w p }
  | none =>
    let rc1 := del_func_step s.results_cache r.fid
    { s with results_cache :=
        match r.wrapped with
        | none => rc1
        | some w => del_func_step rc1 w }

/-- Run a sequence of `get_result` calls on an `LRUCache`. -/
def run_lru (max : Nat) (sk : Bool) (fsem : Nat → Args → Nat) (s : LState) :
    List (Nat × Args) → LState
  | [] => s
  | c :: cs => run_lru max sk fsem (lru_get_result max sk fsem s c.1 c.2).2 cs

/-- All `(function, key)` pairs held in a store. -/
def storePairs (rc : RCache) : List (Nat × Key) :=
  rc.flatMap (fun p => p.2.map (fun q => (p.1, q.1)))

/-- Total number of entries held in a store. -/
def storeSize (rc : RCache) : Nat := (rc.map (fun p => p.2.length)).sum

/-- The LRU invariant: well-formed store, queue a permutation of the stored
pairs, queue within capacity. -/
def LInv (max : Nat) (s : LState) : Prop :=
  WFrc s.results_cache ∧
  List.Perm s.cache_queue (storePairs s.results_cache) ∧
  s.cache_queue.length ≤ max

theorem storePairs_nil : storePairs [] = [] := rfl

theorem storePairs_cons (p : Nat × List (Key × Nat)) (rest : RCache) :
    storePairs (p :: rest)
      = p.2.map (fun q => (p.1, q.1)) ++ storePairs rest := by
  simp [storePairs]

theorem storePairs_length (rc : RCache) :
    (storePairs rc).length = storeSize rc := by
  induction rc with
  | nil => rfl
  | cons p rest ih =>
    rw [storePairs_cons, List.length_append, List.length_map, ih]
    simp [storeSize]

theorem storePairs_fst_mem {rc : RCache} {g : Nat} {k : Key}
    (h : (g, k) ∈ storePairs rc) : g ∈ rc.map Prod.fst := by
  induction rc with
  | nil => simp [storePairs] at h
  | cons p rest ih =>
    rw [storePairs_cons] at h
    rw [List.map_cons]
    rcases List.mem_append.mp h with h | h
    · rcases List.mem_map.mp h with ⟨q, _, hq⟩
      have hg : p.1 = g := congrArg Prod.fst hq
      rw [← hg]
      exact List.mem_cons_self _ _
    · exact List.mem_cons_of_mem _ (ih h)

theorem storePairs_lookup {rc : RCache} {g : Nat} {k : Key}
    (hnd : (rc.map Prod.fst).Nodup) (h : (g, k) ∈ storePairs rc) :
    ∃ sub x, dget rc g = some sub ∧ dget sub k = some x := by
  induction rc with
  | nil => simp [storePairs] at h
  | cons p rest ih =>
    rw [storePairs_cons] at h
    rw [List.map_cons, List.nodup_cons] at hnd
    rcases List.mem_append.mp h with h | h
    · rcases List.mem_map.mp h with ⟨q, hq_mem, hq⟩
      have hg : p.1 = g := congrArg Prod.fst hq
      have hk : q.1 = k := congrArg Prod.snd hq
      refine ⟨p.2, ?_⟩
      rw [dget, if_pos hg]
      have hkk : k ∈ p.2.map Prod.fst := List.mem_map.mpr ⟨q, hq_mem, hk⟩
      rcases ho : dget p.2 k with _ | x
      · exact absurd ho (dget_ne_none_of_mem_keys hkk)
      · exact ⟨x, rfl, rfl⟩
    · have hg_rest : g ∈ rest.map Prod.fst := storePairs_fst_mem h
      have hp : p.1 ≠ g := fun he => hnd.1 (he ▸ hg_rest)
      rcases ih hnd.2 h with ⟨sub, x, h1, h2⟩
      exact ⟨sub, x, by rw [dget, if_neg hp]; exact h1, h2⟩

theorem storePairs_nodup {rc : RCache} (hwf : WFrc rc) :
    (storePairs rc).Nodup := by
  induction rc with
  | nil => simp [storePairs]
  | cons p rest ih =>
    rw [storePairs_cons]
    have hnd := hwf.1
    rw [List.map_cons, List.nodup_cons] at hnd
    have hblock : (p.2.map (fun q => (p.1, q.1))).Nodup := by
      have hkeys : (p.2.map Prod.fst).Nodup := hwf.2 p (List.mem_cons_self _ _)
      have heq : p.2.map (fun q => (p.1, q.1))
          = (p.2.map Prod.fst).map (fun k => (p.1, k)) := by
        rw [List.map_map]
        rfl
      rw [heq]
      exact hkeys.map (fun x y hxy => congrArg Prod.snd hxy)
    have hrest : (storePairs rest).Nodup :=
      ih ⟨hnd.2, fun q hq => hwf.2 q (List.mem_cons_of_mem _ hq)⟩
    rw [List.nodup_append]
    refine ⟨hblock, hrest, ?_⟩
    intro x hx hy
    rcases List.mem_map.mp hx with ⟨q, _, hq⟩
    have hx1 : x.1 = p.1 := by rw [← hq]
    rcases x with ⟨x1, x2⟩
    have : x1 ∈ rest.map Prod.fst := storePairs_fst_mem hy
    exact hnd.1 (by rw [← hx1]; simpa using this)

theorem dget_append_single_ne {α β : Type} [DecidableEq α]
    (l : List (α × β)) (k k' : α) (v : β) (h : k' ≠ k) :
    dget (l ++ [(k, v)]) k' = dget l k' := by
  induction l with
  | nil => simp [dget, Ne.symm h]
  | cons p rest ih =>
    by_cases hp : p.1 = k'
    · simp [dget, hp]
    · simp [dget, hp, ih]

theorem storePairs_cons_pair (pf : Nat) (psub : List (Key × Nat)) (rest : RCache) :
    storePairs ((pf, psub) :: rest)
      = psub.map (fun q => (pf, q.1)) ++ storePairs rest := by
  simp [storePairs]

/-- Mapping the sub-store deletion of a present key onto pairs drops exactly
one pair, up to permutation. -/
theorem map_ddel_perm {psub : List (Key × Nat)} {k : Key} {x : Nat} (pf : Nat)
    (hk : dget psub k = some x) :
    List.Perm (psub.map (fun q => (pf, q.1)))
      ((pf, k) :: (ddel psub k).map (fun q => (pf, q.1))) := by
  induction psub with
  | nil => simp [dget] at hk
  | cons q qs ihq =>
    obtain ⟨qk, qv⟩ := q
    by_cases hq : qk = k
    · subst hq
      rw [ddel_cons, if_pos rfl]
      simp
    · rw [dget_cons, if_neg hq] at hk
      rw [ddel_cons, if_neg hq]
      simp only [List.map_cons]
      exact ((ihq hk).cons _).trans (List.Perm.swap _ _ _)

/-- Inserting a genuinely new key into `f`'s (present) sub-store adds exactly
the pair `(f, k)` to the stored pairs, up to permutation. -/
theorem storePairs_insert {rc : RCache} {f : Nat} {sub : List (Key × Nat)}
    (k : Key) (v : Nat) (hf : dget rc f = some sub) (hk : dget sub k = none) :
    List.Perm (storePairs (dset rc f (dset sub k v))) ((f, k) :: storePairs rc) := by
  induction rc with
  | nil => simp [dget] at hf
  | cons p rest ih =>
    obtain ⟨pf, psub⟩ := p
    by_cases hp : pf = f
    · subst hp
      rw [dget_cons, if_pos rfl] at hf
      injection hf with hf'
      subst hf'
      rw [dset_cons, if_pos rfl]
      rw [storePairs_cons_pair, storePairs_cons_pair]
      rw [dset_of_not_mem _ _ _ hk, List.map_append]
      simp only [List.map_cons, List.map_nil]
      rw [List.append_assoc]
      exact List.perm_middle
    · rw [dget_cons, if_neg hp] at hf
      rw [dset_cons, if_neg hp]
      rw [storePairs_cons_pair, storePairs_cons_pair]
      refine ((ih hf).append_left _).trans ?_
      exact List.perm_middle

/-- Deleting a present key from `f`'s sub-store removes exactly the pair
`(f, k)` from the stored pairs, up to permutation. -/
theorem storePairs_delete {rc : RCache} {f : Nat} {sub : List (Key × Nat)} {x : Nat}
    (k : Key) (hf : dget rc f = some sub) (hk : dget sub k = some x) :
    List.Perm (storePairs rc)
      ((f, k) :: storePairs (dset rc f (ddel sub k))) := by
  induction rc with
  | nil => simp [dget] at hf
  | cons p rest ih =>
    obtain ⟨pf, psub⟩ := p
    by_cases hp : pf = f
    · subst hp
      rw [dget_cons, if_pos rfl] at hf
      injection hf with hf'
      subst hf'
      rw [dset_cons, if_pos rfl]
      rw [storePairs_cons_pair, storePairs_cons_pair]
      exact ((map_ddel_perm pf hk).append_right _).trans (List.Perm.refl _)
    · rw [dget_cons, if_neg hp] at hf
      rw [dset_cons, if_neg hp]
      rw [storePairs_cons_pair, storePairs_cons_pair]
      refine ((ih hf).append_left _).trans ?_
      exact List.perm_middle

/-- Creating an empty sub-store does not change the stored pairs. -/
theorem storePairs_ensure {rc : RCache} {f : Nat} (hf : dget rc f = none) :
    storePairs (dset rc f []) = storePairs rc := by
  rw [dset_of_not_mem _ _ _ hf]
  induction rc with
  | nil => simp [storePairs]
  | cons p rest ih =>
    obtain ⟨pf, psub⟩ := p
    by_cases hp : pf = f
    · rw [dget_cons, if_pos hp] at hf
      cases hf
    · rw [dget_cons, if_neg hp] at hf
      rw [List.cons_append, storePairs_cons_pair, storePairs_cons_pair, ih hf]

theorem storePairs_mem_intro {rc : RCache} {f : Nat} {sub : List (Key × Nat)}
    {k : Key} {x : Nat} (hf : dget rc f = some sub) (hk : dget sub k = some x) :
    (f, k) ∈ storePairs rc := by
  induction rc with
  | nil => simp [dget] at hf
  | cons p rest ih =>
    obtain ⟨pf, psub⟩ := p
    by_cases hp : pf = f
    · subst hp
      rw [dget_cons, if_pos rfl] at hf
      injection hf with hf'
      subst hf'
      rw [storePairs_cons_pair]
      exact List.mem_append.mpr (Or.inl (List.mem_map.mpr ⟨(k, x), mem_of_dget hk, rfl⟩))
    · rw [dget_cons, if_neg hp] at hf
      rw [storePairs_cons_pair]
      exact List.mem_append.mpr (Or.inr (ih hf))

theorem lru_decay_true_eq (max : Nat) (t : LState) (f : Nat) (k : Key) :
    lru_decay max t f k true =
      (if max < (qremove t.cache_queue (f, k) ++ [(f, k)]).length then
        match qremove t.cache_queue (f, k) ++ [(f, k)] with
        | [] => { t with cache_queue := [] }
        | (oldf, oldk) :: rest =>
          { t with
            cache_queue := rest,
            results_cache :=
              (dset t.results_cache oldf
                (ddel ((dget t.results_cache oldf).getD []) oldk)) }
      else { t with cache_queue := qremove t.cache_queue (f, k) ++ [(f, k)] }) := rfl

theorem lru_decay_false_eq (max : Nat) (t : LState) (f : Nat) (k : Key) :
    lru_decay max t f k false =
      (if max < (t.cache_queue ++ [(f, k)]).length then
        match t.cache_queue ++ [(f, k)] with
        | [] => { t with cache_queue := [] }
        | (oldf, oldk) :: rest =>
          { t with
            cache_queue := rest,
            results_cache :=
              (dset t.results_cache oldf
                (ddel ((dget t.results_cache oldf).getD []) oldk)) }
      else { t with cache_queue := t.cache_queue ++ [(f, k)] }) := rfl

/-- On a hit the decay hook only moves the pair to the most-recently-used end
of the queue; no eviction fires and the store is untouched. -/
theorem lru_decay_hit_inv (max : Nat) (t : LState) (f : Nat) (k : Key)
    (hinv : LInv max t) (hmem : (f, k) ∈ storePairs t.results_cache) :
    lru_decay max t f k true =
      { t with cache_queue := qremove t.cache_queue (f, k) ++ [(f, k)] } ∧
    LInv max (lru_decay max t f k true) := by
  obtain ⟨hwf, hperm, hlen⟩ := hinv
  have hq : (f, k) ∈ t.cache_queue := hperm.mem_iff.mpr hmem
  have hq1len : (qremove t.cache_queue (f, k) ++ [(f, k)]).length
      = t.cache_queue.length := by
    rw [List.length_append]
    have := length_qremove hq
    simp
    omega
  have hcond : ¬ max < (qremove t.cache_queue (f, k) ++ [(f, k)]).length := by
    rw [hq1len]
    omega
  have hshape : lru_decay max t f k true =
      { t with cache_queue := qremove t.cache_queue (f, k) ++ [(f, k)] } := by
    rw [lru_decay_true_eq, if_neg hcond]
  refine ⟨hshape, ?_⟩
  rw [hshape]
  refine ⟨hwf, ?_, ?_⟩
  · refine List.Perm.trans ?_ hperm
    refine (List.perm_append_singleton _ _).trans ?_
    exact (qremove_perm hq).symm
  · rw [hq1len]
    exact hlen

/-- After inserting a fresh pair, the decay hook appends it to the queue and,
when over capacity, evicts the least-recently-used pair from both queue and
store; the LRU invariant is preserved. -/
theorem lru_decay_miss_inv (max : Nat) (t : LState) (f : Nat) (k : Key)
    (hwf : WFrc t.results_cache)
    (hperm : List.Perm (t.cache_queue ++ [(f, k)]) (storePairs t.results_cache))
    (hlen : t.cache_queue.length ≤ max) :
    LInv max (lru_decay max t f k false) := by
  rw [lru_decay_false_eq]
  by_cases hcond : max < (t.cache_queue ++ [(f, k)]).length
  · rw [if_pos hcond]
    rcases hq : t.cache_queue ++ [(f, k)] with _ | ⟨⟨oldf, oldk⟩, rest⟩
    · exact absurd hq (by simp)
    · have hold_mem : (oldf, oldk) ∈ storePairs t.results_cache :=
        hperm.mem_iff.mp (by rw [hq]; exact List.mem_cons_self _ _)
      rcases storePairs_lookup hwf.1 hold_mem with ⟨sub, x, hsub, hx⟩
      have hdel := storePairs_delete oldk hsub hx
      show LInv max
        { t with
          cache_queue := rest,
          results_cache :=
            (dset t.results_cache oldf
              (ddel ((dget t.results_cache oldf).getD []) oldk)) }
      unfold LInv
      dsimp only
      simp only [hsub, Option.getD_some]
      refine ⟨?_, ?_, ?_⟩
      · exact WFrc_dset_ddel hwf hsub
      · have hstep : List.Perm ((oldf, oldk) :: rest)
            ((oldf, oldk) :: storePairs (dset t.results_cache oldf (ddel sub oldk))) := by
          rw [← hq]
          exact hperm.trans hdel
        exact hstep.cons_inv
      · have hlen2 : (t.cache_queue ++ [(f, k)]).length = rest.length + 1 := by
          rw [hq]
          simp
        rw [List.length_append] at hlen2
        simp at hlen2
        omega
  · rw [if_neg hcond]
    rw [List.length_append] at hcond
    simp at hcond
    exact ⟨hwf, hperm, by rw [List.length_append]; simpa using hcond⟩

theorem lru_get_result_hit_shape (max : Nat) (sk : Bool) (fsem : Nat → Args → Nat)
    (s : LState) (f : Nat) (a : Args) (v : Nat)
    (h : dget2 s.results_cache f (process_params sk a) = some v) :
    (lru_get_result max sk fsem s f a).2
      = lru_decay max s f (process_params sk a) true := by
  unfold lru_get_result
  rcases hf : dget s.results_cache f with _ | sub
  · simp [dget2, hf, dget] at h
  · have hm : dmem s.results_cache f = true := by simp [dmem, hf]
    simp only [dget2, hf, Option.getD_some] at h
    simp [hm, hf, dmem, h]

theorem lru_get_result_miss_shape (max : Nat) (sk : Bool) (fsem : Nat → Args → Nat)
    (s : LState) (f : Nat) (a : Args)
    (h : dget2 s.results_cache f (process_params sk a) = none) :
    (lru_get_result max sk fsem s f a).2 =
      lru_decay max
        (lru_call_and_add_result sk fsem
          (if dmem s.results_cache f then s
           else { s with results_cache := dset s.results_cache f [] }) f a)
        f (process_params sk a) false := by
  unfold lru_get_result
  rcases hf : dget s.results_cache f with _ | sub
  · simp [dmem, hf, dget_dset_self, dget]
  · have hm : dmem s.results_cache f = true := by simp [dmem, hf]
    simp only [dget2, hf, Option.getD_some] at h
    have hmem : dmem sub (process_params sk a) = false := by simp [dmem, h]
    simp [hm, hf, hmem]

/-- One `get_result` call preserves the LRU invariant. -/
theorem LInv_step (max : Nat) (sk : Bool) (fsem : Nat → Args → Nat) (s : LState)
    (f : Nat) (a : Args) (hinv : LInv max s) :
    LInv max (lru_get_result max sk fsem s f a).2 := by
  obtain ⟨hwf, hperm, hlen⟩ := hinv
  rcases hv : dget2 s.results_cache f (process_params sk a) with _ | v
  · rw [lru_get_result_miss_shape max sk fsem s f a hv]
    by_cases hm : dmem s.results_cache f
    · rcases hf : dget s.results_cache f with _ | sub
      · simp [dmem, hf] at hm
      · have hk : dget sub (process_params sk a) = none := by
          simpa [dget2, hf] using hv
        rw [if_pos hm]
        refine lru_decay_miss_inv max _ f (process_params sk a) ?_ ?_ ?_
        · show WFrc (dset s.results_cache f
            (dset ((dget s.results_cache f).getD []) (process_params sk a) (fsem f a)))
          rw [hf]
          exact WFrc_dset hwf (nodup_keys_dset sub _ _ (WFrc_sub_nodup hwf hf))
        · show List.Perm (s.cache_queue ++ [(f, process_params sk a)])
            (storePairs (dset s.results_cache f
              (dset ((dget s.results_cache f).getD []) (process_params sk a) (fsem f a))))
          rw [hf]
          refine List.Perm.trans ?_ (storePairs_insert _ _ hf hk).symm
          exact (List.perm_append_singleton _ _).trans (hperm.cons _)
        · exact hlen
    · have hf : dget s.results_cache f = none := by
        rcases ho : dget s.results_cache f with _ | u
        · rfl
        · simp [dmem, ho] at hm
      rw [if_neg hm]
      have hrc0 : dget (dset s.results_cache f ([] : List (Key × Nat))) f = some [] :=
        dget_dset_self _ _ _
      refine lru_decay_miss_inv max _ f (process_params sk a) ?_ ?_ ?_
      · show WFrc (dset (dset s.results_cache f [])  f
          (dset ((dget (dset s.results_cache f []) f).getD []) (process_params sk a) (fsem f a)))
        rw [hrc0]
        exact WFrc_dset (WFrc_dset hwf (by simp)) (by simp [dset])
      · show List.Perm (s.cache_queue ++ [(f, process_params sk a)])
          (storePairs (dset (dset s.results_cache f []) f
            (dset ((dget (dset s.results_cache f []) f).getD []) (process_params sk a) (fsem f a))))
        rw [hrc0]
        have hins := storePairs_insert (process_params sk a) (fsem f a) hrc0
          (by simp [dget])
        rw [storePairs_ensure hf] at hins
        refine List.Perm.trans ?_ hins.symm
        exact (List.perm_append_singleton _ _).trans (hperm.cons _)
      · exact hlen
  · rw [lru_get_result_hit_shape max sk fsem s f a v hv]
    rcases hf : dget s.results_cache f with _ | sub
    · simp [dget2, hf, dget] at hv
    · have hk : dget sub (process_params sk a) = some v := by
        simpa [dget2, hf] using hv
      have hmem : (f, process_params sk a) ∈ storePairs s.results_cache :=
        storePairs_mem_intro hf hk
      exact (lru_decay_hit_inv max s f _ ⟨hwf, hperm, hlen⟩ hmem).2

theorem LInv_init (max : Nat) : LInv max LState.init :=
  ⟨⟨by simp [LState.init], by intro p hp; simp [LState.init] at hp⟩,
   by simp [LState.init, storePairs], by simp [LState.init]⟩

theorem LInv_run (max : Nat) (sk : Bool) (fsem : Nat → Args → Nat)
    (s : LState) (cs : List (Nat × Args)) (hinv : LInv max s) :
    LInv max (run_lru max sk fsem s cs) := by
  induction cs generalizing s with
  | nil => exact hinv
  | cons c cs ih => exact ih _ (LInv_step max sk fsem s c.1 c.2 hinv)

theorem LInv_storeSize {max : Nat} {s : LState} (hinv : LInv max s) :
    storeSize s.results_cache ≤ max := by
  rw [← storePairs_length, ← hinv.2.1.length_eq]
  exact hinv.2.2

theorem dget2_dset_dset_self (rc : RCache) (f : Nat) (sub : List (Key × Nat))
    (k : Key) (v : Nat) :
    dget2 (dset rc f (dset sub k v)) f k = some v := by
  simp [dget2, dget_dset_self]

theorem dget2_dset_dset_other {rc : RCache} {f : Nat} {sub : List (Key × Nat)}
    (k : Key) (v : Nat) (g : Nat) (k' : Key)
    (hf : dget rc f = some sub) (h : g ≠ f ∨ k' ≠ k) :
    dget2 (dset rc f (dset sub k v)) g k' = dget2 rc g k' := by
  by_cases hg : g = f
  · subst hg
    rcases h with h | h
    · exact absurd rfl h
    · simp [dget2, dget_dset_self, hf, dget_dset_ne sub k k' v (Ne.symm h)]
  · simp [dget2, dget_dset_ne rc f g _ (fun he => hg he.symm)]

theorem dget2_dset_empty {rc : RCache} {f : Nat} (g : Nat) (k' : Key)
    (hf : dget rc f = none) :
    dget2 (dset rc f []) g k' = dget2 rc g k' := by
  by_cases hg : g = f
  · subst hg
    simp [dget2, dget_dset_self, hf, dget]
  · simp [dget2, dget_dset_ne rc f g _ (fun he => hg he.symm)]

theorem dget2_some_of_mem_storePairs {rc : RCache} {g : Nat} {k : Key}
    (hnd : (rc.map Prod.fst).Nodup) (h : (g, k) ∈ storePairs rc) :
    dget2 rc g k ≠ none := by
  rcases storePairs_lookup hnd h with ⟨sub, x, h1, h2⟩
  simp [dget2, h1, h2]

/-- Properties of the intermediate state reached just before the decay hook
fires on a miss: queue untouched, one invocation logged, the fresh pair
stored and every other entry unchanged. -/
theorem lru_insert_props (sk : Bool) (fsem : Nat → Args → Nat) (s : LState)
    (f : Nat) (a : Args) (hwf : WFrc s.results_cache)
    (hmiss : dget2 s.results_cache f (process_params sk a) = none) :
    ((lru_call_and_add_result sk fsem
        (if dmem s.results_cache f then s
         else { s with results_cache := dset s.results_cache f [] }) f a).cache_queue
      = s.cache_queue) ∧
    ((lru_call_and_add_result sk fsem
        (if dmem s.results_cache f then s
         else { s with results_cache := dset s.results_cache f [] }) f a).calls
      = s.calls ++ [(f, a)]) ∧
    WFrc (lru_call_and_add_result sk fsem
        (if dmem s.results_cache f then s
         else { s with results_cache := dset s.results_cache f [] }) f a).results_cache ∧
    List.Perm
      (storePairs (lru_call_and_add_result sk fsem
        (if dmem s.results_cache f then s
         else { s with results_cache := dset s.results_cache f [] }) f a).results_cache)
      ((f, process_params sk a) :: storePairs s.results_cache) ∧
    dget2 (lru_call_and_add_result sk fsem
        (if dmem s.results_cache f then s
         else { s with results_cache := dset s.results_cache f [] }) f a).results_cache
      f (process_params sk a) = some (fsem f a) ∧
    (∀ g k', g ≠ f ∨ k' ≠ process_params sk a →
      dget2 (lru_call_and_add_result sk fsem
        (if dmem s.results_cache f then s
         else { s with results_cache := dset s.results_cache f [] }) f a).results_cache
        g k' = dget2 s.results_cache g k') := by
  by_cases hm : dmem s.results_cache f
  · rcases hf : dget s.results_cache f with _ | sub
    · simp [dmem, hf] at hm
    · have hk : dget sub (process_params sk a) = none := by
        simpa [dget2, hf] using hmiss
      rw [if_pos hm]
      unfold lru_call_and_add_result
      refine ⟨rfl, rfl, ?_, ?_, ?_, ?_⟩
      · show WFrc (dset s.results_cache f
          (dset ((dget s.results_cache f).getD []) (process_params sk a) (fsem f a)))
        rw [hf]
        exact WFrc_dset hwf (nodup_keys_dset sub _ _ (WFrc_sub_nodup hwf hf))
      · show List.Perm (storePairs (dset s.results_cache f
          (dset ((dget s.results_cache f).getD []) (process_params sk a) (fsem f a)))) _
        rw [hf]
        exact storePairs_insert _ _ hf hk
      · show dget2 (dset s.results_cache f
          (dset ((dget s.results_cache f).getD []) (process_params sk a) (fsem f a)))
            f (process_params sk a) = some (fsem f a)
        rw [hf]
        exact dget2_dset_dset_self _ _ _ _ _
      · intro g k' hg
        show dget2 (dset s.results_cache f
          (dset ((dget s.results_cache f).getD []) (process_params sk a) (fsem f a)))
            g k' = dget2 s.results_cache g k'
        rw [hf]
        exact dget2_dset_dset_other _ _ g k' hf hg
  · have hf : dget s.results_cache f = none := by
      rcases ho : dget s.results_cache f with _ | u
      · rfl
      · simp [dmem, ho] at hm
    rw [if_neg hm]
    unfold lru_call_and_add_result
    have hrc0 : dget (dset s.results_cache f ([] : List (Key × Nat))) f = some [] :=
      dget_dset_self _ _ _
    refine ⟨rfl, rfl, ?_, ?_, ?_, ?_⟩
    · show WFrc (dset (dset s.results_cache f []) f
        (dset ((dget (dset s.results_cache f []) f).getD []) (process_params sk a) (fsem f a)))
      rw [hrc0]
      exact WFrc_dset (WFrc_dset hwf (by simp)) (by simp [dset])
    · show List.Perm (storePairs (dset (dset s.results_cache f []) f
        (dset ((dget (dset s.results_cache f []) f).getD []) (process_params sk a) (fsem f a)))) _
      rw [hrc0]
      have hins := storePairs_insert (process_params sk a) (fsem f a) hrc0 (by simp [dget])
      rw [storePairs_ensure hf] at hins
      exact hins
    · show dget2 (dset (dset s.results_cache f []) f
        (dset ((dget (dset s.results_cache f []) f).getD []) (process_params sk a) (fsem f a)))
          f (process_params sk a) = some (fsem f a)
      rw [hrc0]
      exact dget2_dset_dset_self _ _ _ _ _
    · intro g k' hg
      show dget2 (dset (dset s.results_cache f []) f
        (dset ((dget (dset s.results_cache f []) f).getD []) (process_params sk a) (fsem f a)))
          g k' = dget2 s.results_cache g k'
      rw [hrc0]
      simp only [Option.getD_some]
      rw [dget2_dset_dset_other _ _ g k' hrc0 hg]
      exact dget2_dset_empty g k' hf

theorem pair_ne_split {α β : Type} {p q : α × β} (h : p ≠ q) :
    p.1 ≠ q.1 ∨ p.2 ≠ q.2 := by
  rcases p with ⟨p1, p2⟩
  rcases q with ⟨q1, q2⟩
  by_cases h1 : p1 = q1
  · subst h1
    right
    intro h2
    simp only at h2
    exact h (by rw [h2])
  · left
    exact h1

/-! ### Claim theorems C4, C5 -/

/-- C4: the claimed invariant — every pair in the LRU recency queue refers to
an entry present in the cache store, under every operation including
`remove_from_cache` — fails on the code: `LRUCache` inherits
`Memoizer.remove_from_cache`, which deletes from `results_cache` but never
touches `cache_queue`.  Concretely, with capacity 1, after `get_result(f, 1)`
and `remove_from_cache(f, params_of(1))` the pair is still queued while its
store entry is gone (a later eviction of that stale pair would then crash
`del self.results_cache[old_func][old_params]` with `KeyError`). -/
theorem C4_remove_breaks_queue_store_invariant :
    ((0 : Nat), process_params true ⟨[1], []⟩) ∈
      (lru_remove_from_cache
        (run_lru 1 true (fun _ a => a.pos.headD 0 + 2) LState.init [(0, ⟨[1], []⟩)])
        ⟨0, none⟩ (some (process_params true ⟨[1], []⟩))).cache_queue ∧
    dget2 (lru_remove_from_cache
        (run_lru 1 true (fun _ a => a.pos.headD 0 + 2) LState.init [(0, ⟨[1], []⟩)])
        ⟨0, none⟩ (some (process_params true ⟨[1], []⟩))).results_cache
      0 (process_params true ⟨[1], []⟩) = none := by
  constructor
  · decide
  · decide

/-- C5: for an LRU memoizer of capacity `N ≥ 1`: (1) any sequence of
`get_result` calls from a fresh state leaves at most `N` cached entries;
(2) a miss arriving with the queue at capacity evicts exactly the
least-recently-used pair — its entry is deleted, the fresh entry is stored,
and every other queued pair keeps its value; (3) a hit moves the pair to the
most-recently-used end of the queue, so (with at least two entries) it is no
longer the eviction candidate at the head; (4) the specification's scenario
(capacity 2, keys 1,2,3: key 1 evicted, keys 2 and 3 hit without
recomputation) holds. -/
theorem C5_lru_bound_and_eviction (max : Nat) (sk : Bool)
    (fsem : Nat → Args → Nat) (hmax : 1 ≤ max) :
    (∀ cs, storeSize (run_lru max sk fsem LState.init cs).results_cache ≤ max) ∧
    (∀ s f a, LInv max s →
      dget2 s.results_cache f (process_params sk a) = none →
      s.cache_queue.length = max →
      ∃ hd tl, s.cache_queue = hd :: tl ∧
        (lru_get_result max sk fsem s f a).2.cache_queue
          = tl ++ [(f, process_params sk a)] ∧
        dget2 (lru_get_result max sk fsem s f a).2.results_cache hd.1 hd.2 = none ∧
        dget2 (lru_get_result max sk fsem s f a).2.results_cache f (process_params sk a)
          = some (fsem f a) ∧
        (∀ p ∈ tl, dget2 (lru_get_result max sk fsem s f a).2.results_cache p.1 p.2
          = dget2 s.results_cache p.1 p.2)) ∧
    (∀ s f a v, LInv max s →
      dget2 s.results_cache f (process_params sk a) = some v →
      (lru_get_result max sk fsem s f a).2.cache_queue
        = qremove s.cache_queue (f, process_params sk a) ++ [(f, process_params sk a)] ∧
      (2 ≤ s.cache_queue.length →
        (lru_get_result max sk fsem s f a).2.cache_queue.head?
          ≠ some (f, process_params sk a))) ∧
    (dget2 (run_lru 2 true (fun _ a => a.pos.headD 0 + 2) LState.init
        [(0, ⟨[1], []⟩), (0, ⟨[2], []⟩), (0, ⟨[3], []⟩)]).results_cache
        0 (process_params true ⟨[1], []⟩) = none ∧
     dget2 (run_lru 2 true (fun _ a => a.pos.headD 0 + 2) LState.init
        [(0, ⟨[1], []⟩), (0, ⟨[2], []⟩), (0, ⟨[3], []⟩)]).results_cache
        0 (process_params true ⟨[2], []⟩) = some 4 ∧
     dget2 (run_lru 2 true (fun _ a => a.pos.headD 0 + 2) LState.init
        [(0, ⟨[1], []⟩), (0, ⟨[2], []⟩), (0, ⟨[3], []⟩)]).results_cache
        0 (process_params true ⟨[3], []⟩) = some 5 ∧
     (lru_get_result 2 true (fun _ a => a.pos.headD 0 + 2)
        (run_lru 2 true (fun _ a => a.pos.headD 0 + 2) LState.init
          [(0, ⟨[1], []⟩), (0, ⟨[2], []⟩), (0, ⟨[3], []⟩)]) 0 ⟨[2], []⟩).2.calls
       = (run_lru 2 true (fun _ a => a.pos.headD 0 + 2) LState.init
          [(0, ⟨[1], []⟩), (0, ⟨[2], []⟩), (0, ⟨[3], []⟩)]).calls ∧
     (lru_get_result 2 true (fun _ a => a.pos.headD 0 + 2)
        (run_lru 2 true (fun _ a => a.pos.headD 0 + 2) LState.init
          [(0, ⟨[1], []⟩), (0, ⟨[2], []⟩), (0, ⟨[3], []⟩)]) 0 ⟨[3], []⟩).2.calls
       = (run_lru 2 true (fun _ a => a.pos.headD 0 + 2) LState.init
          [(0, ⟨[1], []⟩), (0, ⟨[2], []⟩), (0, ⟨[3], []⟩)]).calls) := by
  refine ⟨?_, ?_, ?_, ?_⟩
  · intro cs
    exact LInv_storeSize (LInv_run max sk fsem LState.init cs (LInv_init max))
  · intro s f a hinv hmiss hcap
    obtain ⟨hwf, hperm, hlen⟩ := hinv
    have hqnd : s.cache_queue.Nodup := hperm.nodup_iff.mpr (storePairs_nodup hwf)
    have hfpnotq : (f, process_params sk a) ∉ s.cache_queue := by
      intro hmem
      exact dget2_some_of_mem_storePairs hwf.1 (hperm.mem_iff.mp hmem) hmiss
    rcases hq : s.cache_queue with _ | ⟨⟨hd1, hd2⟩, tl⟩
    · rw [hq] at hcap
      simp at hcap
      omega
    refine ⟨(hd1, hd2), tl, rfl, ?_⟩
    obtain ⟨h1q, h1c, h1wf, h1perm, h1self, h1frame⟩ :=
      lru_insert_props sk fsem s f a hwf hmiss
    rw [lru_get_result_miss_shape max sk fsem s f a hmiss]
    rw [lru_decay_false_eq]
    have hq1 : (lru_call_and_add_result sk fsem
        (if dmem s.results_cache f then s
         else { s with results_cache := dset s.results_cache f [] }) f a).cache_queue
        ++ [(f, process_params sk a)]
        = (hd1, hd2) :: (tl ++ [(f, process_params sk a)]) := by
      rw [h1q, hq]
      rfl
    rw [hq1]
    have hcond : max < ((hd1, hd2) :: (tl ++ [(f, process_params sk a)])).length := by
      have hlen2 : tl.length + 1 = max := by
        rw [hq] at hcap
        simpa using hcap
      simp
      omega
    rw [if_pos hcond]
    dsimp only
    -- the evicted pair is (hd1, hd2); set up its store lookup
    have hd_mem_q : (hd1, hd2) ∈ s.cache_queue := by
      rw [hq]
      exact List.mem_cons_self _ _
    have hd_mem_sp1 : (hd1, hd2) ∈ storePairs
        (lru_call_and_add_result sk fsem
          (if dmem s.results_cache f then s
           else { s with results_cache := dset s.results_cache f [] }) f a).results_cache := by
      refine h1perm.mem_iff.mpr ?_
      exact List.mem_cons_of_mem _ (hperm.mem_iff.mp hd_mem_q)
    rcases storePairs_lookup h1wf.1 hd_mem_sp1 with ⟨subhd, xhd, hsubhd, hxhd⟩
    have hne_hd_fp : ((hd1 : Nat), hd2) ≠ (f, process_params sk a) := by
      intro he
      exact hfpnotq (he ▸ hd_mem_q)
    have hd_split : f ≠ hd1 ∨ process_params sk a ≠ hd2 :=
      (pair_ne_split hne_hd_fp).imp Ne.symm Ne.symm
    refine ⟨rfl, ?_, ?_, ?_⟩
    · rw [hsubhd]
      simp only [Option.getD_some]
      exact dget2_dset_ddel_self h1wf hsubhd
    · rw [hsubhd]
      simp only [Option.getD_some]
      rw [dget2_dset_ddel_other f (process_params sk a) hsubhd hd_split]
      exact h1self
    · intro p hp
      have hp_q : p ∈ s.cache_queue := by
        rw [hq]
        exact List.mem_cons_of_mem _ hp
      have hp_ne_hd : p ≠ (hd1, hd2) := by
        intro he
        rw [hq, List.nodup_cons] at hqnd
        exact hqnd.1 (he ▸ hp)
      have hp_ne_fp : p ≠ (f, process_params sk a) := by
        intro he
        exact hfpnotq (he ▸ hp_q)
      have hp_split_hd : p.1 ≠ hd1 ∨ p.2 ≠ hd2 := pair_ne_split hp_ne_hd
      have hp_split_fp : p.1 ≠ f ∨ p.2 ≠ process_params sk a := pair_ne_split hp_ne_fp
      rw [hsubhd]
      simp only [Option.getD_some]
      rw [dget2_dset_ddel_other p.1 p.2 hsubhd hp_split_hd]
      exact h1frame p.1 p.2 hp_split_fp
  · intro s f a v hinv hhit
    rcases hf : dget s.results_cache f with _ | sub
    · simp [dget2, hf, dget] at hhit
    · have hk : dget sub (process_params sk a) = some v := by
        simpa [dget2, hf] using hhit
      have hmem : (f, process_params sk a) ∈ storePairs s.results_cache :=
        storePairs_mem_intro hf hk
      have hshape := (lru_decay_hit_inv max s f (process_params sk a) hinv hmem).1
      rw [lru_get_result_hit_shape max sk fsem s f a v hhit, hshape]
      have hqnd : s.cache_queue.Nodup :=
        hinv.2.1.nodup_iff.mpr (storePairs_nodup hinv.1)
      have hq_mem : (f, process_params sk a) ∈ s.cache_queue :=
        hinv.2.1.mem_iff.mpr hmem
      refine ⟨rfl, ?_⟩
      intro h2len
      rcases hqr : qremove s.cache_queue (f, process_params sk a) with _ | ⟨y, ys⟩
      · have hl := length_qremove hq_mem
        rw [hqr] at hl
        simp at hl
        omega
      · dsimp only
        simp only [List.cons_append, List.head?_cons]
        intro he
        injection he with he
        have hy_mem : y ∈ qremove s.cache_queue (f, process_params sk a) := by
          rw [hqr]
          exact List.mem_cons_self _ _
        rw [he] at hy_mem
        exact not_mem_qremove_self hqnd hy_mem
  · refine ⟨?_, ?_, ?_, ?_, ?_⟩ <;> decide

/-- Witness for C5 at capacity 2 with the specification's scenario function. -/
theorem C5_lru_bound_and_eviction_witness :
    1 ≤ 2 ∧
    ((∀ cs, storeSize (run_lru 2 true (fun _ a => a.pos.headD 0 + 2)
        LState.init cs).results_cache ≤ 2) ∧
     (∀ s f a, LInv 2 s →
       dget2 s.results_cache f (process_params true a) = none →
       s.cache_queue.length = 2 →
       ∃ hd tl, s.cache_queue = hd :: tl ∧
         (lru_get_result 2 true (fun _ a => a.pos.headD 0 + 2) s f a).2.cache_queue
           = tl ++ [(f, process_params true a)] ∧
         dget2 (lru_get_result 2 true (fun _ a => a.pos.headD 0 + 2) s f a).2.results_cache
           hd.1 hd.2 = none ∧
         dget2 (lru_get_result 2 true (fun _ a => a.pos.headD 0 + 2) s f a).2.results_cache
           f (process_params true a) = some ((fun _ (a : Args) => a.pos.headD 0 + 2) f a) ∧
         (∀ p ∈ tl, dget2 (lru_get_result 2 true (fun _ a => a.pos.headD 0 + 2)
             s f a).2.results_cache p.1 p.2 = dget2 s.results_cache p.1 p.2)) ∧
     (∀ s f a v, LInv 2 s →
       dget2 s.results_cache f (process_params true a) = some v →
       (lru_get_result 2 true (fun _ a => a.pos.headD 0 + 2) s f a).2.cache_queue
         = qremove s.cache_queue (f, process_params true a) ++ [(f, process_params true a)] ∧
       (2 ≤ s.cache_queue.length →
         (lru_get_result 2 true (fun _ a => a.pos.headD 0 + 2) s f a).2.cache_queue.head?
           ≠ some (f, process_params true a))) ∧
     (dget2 (run_lru 2 true (fun _ a => a.pos.headD 0 + 2) LState.init
         [(0, ⟨[1], []⟩), (0, ⟨[2], []⟩), (0, ⟨[3], []⟩)]).results_cache
         0 (process_params true ⟨[1], []⟩) = none ∧
      dget2 (run_lru 2 true (fun _ a => a.pos.headD 0 + 2) LState.init
         [(0, ⟨[1], []⟩), (0, ⟨[2], []⟩), (0, ⟨[3], []⟩)]).results_cache
         0 (process_params true ⟨[2], []⟩) = some 4 ∧
      dget2 (run_lru 2 true (fun _ a => a.pos.headD 0 + 2) LState.init
         [(0, ⟨[1], []⟩), (0, ⟨[2], []⟩), (0, ⟨[3], []⟩)]).results_cache
         0 (process_params true ⟨[3], []⟩) = some 5 ∧
      (lru_get_result 2 true (fun _ a => a.pos.headD 0 + 2)
         (run_lru 2 true (fun _ a => a.pos.headD 0 + 2) LState.init
           [(0, ⟨[1], []⟩), (0, ⟨[2], []⟩), (0, ⟨[3], []⟩)]) 0 ⟨[2], []⟩).2.calls
        = (run_lru 2 true (fun _ a => a.pos.headD 0 + 2) LState.init
           [(0, ⟨[1], []⟩), (0, ⟨[2], []⟩), (0, ⟨[3], []⟩)]).calls ∧
      (lru_get_result 2 true (fun _ a => a.pos.headD 0 + 2)
         (run_lru 2 true (fun _ a => a.pos.headD 0 + 2) LState.init
           [(0, ⟨[1], []⟩), (0, ⟨[2], []⟩), (0, ⟨[3], []⟩)]) 0 ⟨[3], []⟩).2.calls
        = (run_lru 2 true (fun _ a => a.pos.headD 0 + 2) LState.init
           [(0, ⟨[1], []⟩), (0, ⟨[2], []⟩), (0, ⟨[3], []⟩)]).calls)) :=
  ⟨by decide, C5_lru_bound_and_eviction 2 true (fun _ a => a.pos.headD 0 + 2) (by decide)⟩

/-! ## `TrackingMemoizer` (`src/rememo/templates.py`) -/

/-- State of a `TrackingMemoizer`: the inherited `results_cache` and ghost
call log, plus global and per-function hit/miss counters. -/
structure TState where
  results_cache : RCache
  calls : List (Nat × Args)
  hits_total : Nat
  misses_total : Nat
  hits_by_func : List (Nat × Nat)
  misses_by_func : List (Nat × Nat)
deriving DecidableEq, Repr

/-- A freshly constructed `TrackingMemoizer` (templates.py lines 20-26). -/
def TState.init : TState := ⟨[], [], 0, 0, [], []⟩

/-- `TrackingMemoizer.handle_cache_decay` (templates.py lines 28-50): ensure
zero entries exist for the function in both per-function maps, then bump the
global and per-function counter for a hit or a miss.  The `params` argument
is accepted and ignored, as in the source. -/
def tracking_decay (s : TState) (f : Nat) (params : Key) (was_hit : Bool) : TState :=
  let h0 := if dmem s.hits_by_func f then s.hits_by_func else dset s.hits_by_func f 0
  let m0 := if dmem s.misses_by_func f then s.misses_by_func else dset s.misses_by_func f 0
  if was_hit then
    { s with
      hits_total := s.hits_total + 1,
      hits_by_func := dset h0 f ((dget h0 f).getD 0 + 1),
      misses_by_func := m0 }
  else
    { s with
      misses_total := s.misses_total + 1,
      hits_by_func := h0,
      misses_by_func := dset m0 f ((dget m0 f).getD 0 + 1) }

/-- `Memoizer._call_and_add_result` running on a `TrackingMemoizer` state. -/
def trk_call_and_add_result (sk : Bool) (fsem : Nat → Args → Nat) (s : TState)
    (f : Nat) (a : Args) : TState :=
  let r := fsem f a
  let params := process_params sk a
  { s with
    results_cache :=
      (dset s.results_cache f
        (dset ((dget s.results_cache f).getD []) params r)),
    calls := s.calls ++ [(f, a)] }

/-- `Memoizer.get_result` running on a `TrackingMemoizer` (inherited body with
the overridden `handle_cache_decay`). -/
def trk_get_result (sk : Bool) (fsem : Nat → Args → Nat) (s : TState)
    (f : Nat) (a : Args) : Nat × TState :=
  let s0 := if dmem s.results_cache f then s
            else { s with results_cache := dset s.results_cache f [] }
  let params := process_params sk a
  if dmem ((dget s0.results_cache f).getD []) params then
    let s1 := tracking_decay s0 f params true
    ((dget ((dget s1.results_cache f).getD []) params).getD 0, s1)
  else
    let s1 := trk_call_and_add_result sk fsem s0 f a
    let s2 := tracking_decay s1 f params false
    ((dget ((dget s2.results_cache f).getD []) params).getD 0, s2)

/-- `TrackingMemoizer.get_hits_misses` (templates.py lines 52-68): with a
function, the per-function pair (`none` models the `KeyError` raised when the
function was never seen); without, the global pair. -/
def get_hits_misses (s : TState) (f : Option Nat) : Option (Nat × Nat) :=
  match f with
  | some f =>
    match dget s.hits_by_func f, dget s.misses_by_func f with
    | some h, some m => some (h, m)
    | _, _ => none
  | none => some (s.hits_total, s.misses_total)

/-- Run a sequence of `get_result` calls on a `TrackingMemoizer`. -/
def run_trk (sk : Bool) (fsem : Nat → Args → Nat) (s : TState) :
    List (Nat × Args) → TState
  | [] => s
  | c :: cs => run_trk sk fsem (trk_get_result sk fsem s c.1 c.2).2 cs

/-- Sum of the counter values of a per-function map. -/
def vsum (l : List (Nat × Nat)) : Nat := (l.map Prod.snd).sum

theorem vsum_dset_some {l : List (Nat × Nat)} {k x : Nat} (v : Nat)
    (h : dget l k = some x) : vsum (dset l k v) + x = vsum l + v := by
  induction l with
  | nil => simp [dget] at h
  | cons p rest ih =>
    obtain ⟨pk, pv⟩ := p
    by_cases hp : pk = k
    · subst hp
      rw [dget_cons, if_pos rfl] at h
      injection h with h
      subst h
      rw [dset_cons, if_pos rfl]
      simp [vsum]
      omega
    · rw [dget_cons, if_neg hp] at h
      rw [dset_cons, if_neg hp]
      simp only [vsum, List.map_cons, List.sum_cons] at ih ⊢
      have := ih h
      omega

theorem vsum_dset_none {l : List (Nat × Nat)} {k : Nat} (v : Nat)
    (h : dget l k = none) : vsum (dset l k v) = vsum l + v := by
  rw [dset_of_not_mem _ _ _ h]
  simp [vsum]

theorem vsum_ensure (l : List (Nat × Nat)) (k : Nat) :
    vsum (if dmem l k then l else dset l k 0) = vsum l := by
  by_cases hm : dmem l k
  · rw [if_pos hm]
  · rw [if_neg hm]
    have h : dget l k = none := by
      rcases ho : dget l k with _ | u
      · rfl
      · simp [dmem, ho] at hm
    rw [vsum_dset_none 0 h]
    omega

theorem dget_ensure_some (l : List (Nat × Nat)) (k : Nat) :
    ∃ x, dget (if dmem l k then l else dset l k 0) k = some x := by
  by_cases hm : dmem l k
  · rw [if_pos hm]
    rcases ho : dget l k with _ | u
    · simp [dmem, ho] at hm
    · exact ⟨u, rfl⟩
  · rw [if_neg hm]
    exact ⟨0, dget_dset_self _ _ _⟩

/-- Accounting invariant: per-function sums equal the global totals. -/
def TAcc (s : TState) : Prop :=
  vsum s.hits_by_func = s.hits_total ∧ vsum s.misses_by_func = s.misses_total

theorem TAcc_decay (s : TState) (f : Nat) (params : Key) (b : Bool) (h : TAcc s) :
    TAcc (tracking_decay s f params b) ∧
    (tracking_decay s f params b).hits_total + (tracking_decay s f params b).misses_total
      = s.hits_total + s.misses_total + 1 := by
  obtain ⟨hh, hm⟩ := h
  unfold tracking_decay
  rcases dget_ensure_some s.hits_by_func f with ⟨x, hx⟩
  rcases dget_ensure_some s.misses_by_func f with ⟨y, hy⟩
  cases b
  · simp only [Bool.false_eq_true, if_false]
    refine ⟨⟨?_, ?_⟩, ?_⟩
    · rw [vsum_ensure]
      exact hh
    · rw [hy]
      simp only [Option.getD_some]
      have hv := vsum_dset_some (y + 1) hy
      rw [vsum_ensure] at hv
      omega
    · omega
  · simp only [if_true]
    refine ⟨⟨?_, ?_⟩, ?_⟩
    · rw [hx]
      simp only [Option.getD_some]
      have hv := vsum_dset_some (x + 1) hx
      rw [vsum_ensure] at hv
      omega
    · rw [vsum_ensure]
      exact hm
    · omega

theorem TAcc_step (sk : Bool) (fsem : Nat → Args → Nat) (s : TState)
    (f : Nat) (a : Args) (h : TAcc s) :
    TAcc (trk_get_result sk fsem s f a).2 ∧
    (trk_get_result sk fsem s f a).2.hits_total
      + (trk_get_result sk fsem s f a).2.misses_total
      = s.hits_total + s.misses_total + 1 := by
  unfold trk_get_result
  by_cases hm : dmem s.results_cache f
  · simp only [hm, if_true]
    by_cases hmem : dmem ((dget s.results_cache f).getD []) (process_params sk a)
    · simp only [hmem, if_true]
      exact TAcc_decay s f _ true h
    · simp only [hmem, Bool.false_eq_true, if_false]
      exact TAcc_decay _ f _ false h
  · simp only [hm, Bool.false_eq_true, if_false]
    by_cases hmem : dmem ((dget (dset s.results_cache f []) f).getD []) (process_params sk a)
    · simp only [hmem, if_true]
      exact TAcc_decay _ f _ true h
    · simp only [hmem, Bool.false_eq_true, if_false]
      exact TAcc_decay _ f _ false h

theorem TAcc_run (sk : Bool) (fsem : Nat → Args → Nat) (cs : List (Nat × Args))
    (s : TState) (h : TAcc s) :
    TAcc (run_trk sk fsem s cs) ∧
    (run_trk sk fsem s cs).hits_total + (run_trk sk fsem s cs).misses_total
      = s.hits_total + s.misses_total + cs.length := by
  induction cs generalizing s with
  | nil => exact ⟨h, by simp [run_trk]⟩
  | cons c cs ih =>
    obtain ⟨h1, h2⟩ := TAcc_step sk fsem s c.1 c.2 h
    obtain ⟨h3, h4⟩ := ih _ h1
    refine ⟨h3, ?_⟩
    rw [run_trk] at *
    simp only [List.length_cons]
    omega

theorem dget_dset_pres {α β : Type} [DecidableEq α] (l : List (α × β)) (k : α) (v : β)
    (k' : α) (h : dget l k' ≠ none) : dget (dset l k v) k' ≠ none := by
  by_cases hk : k = k'
  · subst hk
    simp [dget_dset_self]
  · rw [dget_dset_ne l k k' v hk]
    exact h

theorem dget_ensure_pres (l : List (Nat × Nat)) (k k' : Nat)
    (h : dget l k' ≠ none) :
    dget (if dmem l k then l else dset l k 0) k' ≠ none := by
  by_cases hm : dmem l k
  · rw [if_pos hm]
    exact h
  · rw [if_neg hm]
    exact dget_dset_pres l k 0 k' h

/-- After the decay hook runs for `f`, both per-function maps contain `f`;
and any function already tracked stays tracked. -/
theorem tracked_decay (s : TState) (f : Nat) (params : Key) (b : Bool) :
    (dget (tracking_decay s f params b).hits_by_func f ≠ none ∧
     dget (tracking_decay s f params b).misses_by_func f ≠ none) ∧
    (∀ g, dget s.hits_by_func g ≠ none →
       dget (tracking_decay s f params b).hits_by_func g ≠ none) ∧
    (∀ g, dget s.misses_by_func g ≠ none →
       dget (tracking_decay s f params b).misses_by_func g ≠ none) := by
  unfold tracking_decay
  have hh : dget (if dmem s.hits_by_func f then s.hits_by_func
      else dset s.hits_by_func f 0) f ≠ none := by
    rcases dget_ensure_some s.hits_by_func f with ⟨x, hx⟩
    simp [hx]
  have hm : dget (if dmem s.misses_by_func f then s.misses_by_func
      else dset s.misses_by_func f 0) f ≠ none := by
    rcases dget_ensure_some s.misses_by_func f with ⟨y, hy⟩
    simp [hy]
  cases b
  · simp only [Bool.false_eq_true, if_false]
    refine ⟨⟨hh, dget_dset_pres _ f _ f hm⟩, ?_, ?_⟩
    · intro g hg
      exact dget_ensure_pres _ f g hg
    · intro g hg
      exact dget_dset_pres _ f _ g (dget_ensure_pres _ f g hg)
  · simp only [if_true]
    refine ⟨⟨dget_dset_pres _ f _ f hh, hm⟩, ?_, ?_⟩
    · intro g hg
      exact dget_dset_pres _ f _ g (dget_ensure_pres _ f g hg)
    · intro g hg
      exact dget_ensure_pres _ f g hg

theorem tracked_step (sk : Bool) (fsem : Nat → Args → Nat) (s : TState)
    (f : Nat) (a : Args) :
    (dget (trk_get_result sk fsem s f a).2.hits_by_func f ≠ none ∧
     dget (trk_get_result sk fsem s f a).2.misses_by_func f ≠ none) ∧
    (∀ g, dget s.hits_by_func g ≠ none →
       dget (trk_get_result sk fsem s f a).2.hits_by_func g ≠ none) ∧
    (∀ g, dget s.misses_by_func g ≠ none →
       dget (trk_get_result sk fsem s f a).2.misses_by_func g ≠ none) := by
  unfold trk_get_result
  by_cases hm : dmem s.results_cache f
  · simp only [hm, if_true]
    by_cases hmem : dmem ((dget s.results_cache f).getD []) (process_params sk a)
    · simp only [hmem, if_true]
      exact tracked_decay s f _ true
    · simp only [hmem, Bool.false_eq_true, if_false]
      exact tracked_decay _ f _ false
  · simp only [hm, Bool.false_eq_true, if_false]
    by_cases hmem : dmem ((dget (dset s.results_cache f []) f).getD []) (process_params sk a)
    · simp only [hmem, if_true]
      exact tracked_decay _ f _ true
    · simp only [hmem, Bool.false_eq_true, if_false]
      exact tracked_decay _ f _ false

theorem tracked_run (sk : Bool) (fsem : Nat → Args → Nat) (cs : List (Nat × Args))
    (s : TState) :
    (∀ g, dget s.hits_by_func g ≠ none →
       dget (run_trk sk fsem s cs).hits_by_func g ≠ none) ∧
    (∀ g, dget s.misses_by_func g ≠ none →
       dget (run_trk sk fsem s cs).misses_by_func g ≠ none) ∧
    (∀ f a, (f, a) ∈ cs →
       dget (run_trk sk fsem s cs).hits_by_func f ≠ none ∧
       dget (run_trk sk fsem s cs).misses_by_func f ≠ none) := by
  induction cs generalizing s with
  | nil =>
    refine ⟨fun g hg => hg, fun g hg => hg, ?_⟩
    intro f a hfa
    simp at hfa
  | cons c cs ih =>
    obtain ⟨hstep_new, hstep_h, hstep_m⟩ := tracked_step sk fsem s c.1 c.2
    obtain ⟨ih_h, ih_m, ih_mem⟩ := ih ((trk_get_result sk fsem s c.1 c.2).2)
    refine ⟨?_, ?_, ?_⟩
    · intro g hg
      exact ih_h g (hstep_h g hg)
    · intro g hg
      exact ih_m g (hstep_m g hg)
    · intro f a hfa
      rcases List.mem_cons.mp hfa with hfa | hfa
      · subst hfa
        exact ⟨ih_h _ hstep_new.1, ih_m _ hstep_new.2⟩
      · exact ih_mem f a hfa

/-- C7: after any sequence of `get_result` calls on a fresh
`TrackingMemoizer`, `hits_total + misses_total` equals the number of
`get_result` invocations; the per-function hit (resp. miss) counters sum to
the global totals; and `get_hits_misses` returns the per-function pair when
given a function that has been called and the global pair when the function
is omitted. -/
theorem C7_tracking_counters (sk : Bool) (fsem : Nat → Args → Nat)
    (cs : List (Nat × Args)) :
    (run_trk sk fsem TState.init cs).hits_total
      + (run_trk sk fsem TState.init cs).misses_total = cs.length ∧
    vsum (run_trk sk fsem TState.init cs).hits_by_func
      = (run_trk sk fsem TState.init cs).hits_total ∧
    vsum (run_trk sk fsem TState.init cs).misses_by_func
      = (run_trk sk fsem TState.init cs).misses_total ∧
    get_hits_misses (run_trk sk fsem TState.init cs) none
      = some ((run_trk sk fsem TState.init cs).hits_total,
              (run_trk sk fsem TState.init cs).misses_total) ∧
    (∀ f a, (f, a) ∈ cs → ∃ h m,
       dget (run_trk sk fsem TState.init cs).hits_by_func f = some h ∧
       dget (run_trk sk fsem TState.init cs).misses_by_func f = some m ∧
       get_hits_misses (run_trk sk fsem TState.init cs) (some f) = some (h, m)) := by
  obtain ⟨⟨hacc1, hacc2⟩, htot⟩ :=
    TAcc_run sk fsem cs TState.init ⟨rfl, rfl⟩
  obtain ⟨-, -, hmem⟩ := tracked_run sk fsem cs TState.init
  refine ⟨by simpa [TState.init] using htot, hacc1, hacc2, rfl, ?_⟩
  intro f a hfa
  obtain ⟨hh, hm⟩ := hmem f a hfa
  rcases hoh : dget (run_trk sk fsem TState.init cs).hits_by_func f with _ | h
  · exact absurd hoh hh
  rcases hom : dget (run_trk sk fsem TState.init cs).misses_by_func f with _ | m
  · exact absurd hom hm
  refine ⟨h, m, rfl, rfl, ?_⟩
  simp [get_hits_misses, hoh, hom]

/-- Witness for C7 on a concrete call sequence of three invocations. -/
theorem C7_tracking_counters_witness :
    (run_trk true (fun f a => f + a.pos.headD 0) TState.init
       [(0, ⟨[], []⟩), (0, ⟨[], []⟩), (1, ⟨[2], []⟩)]).hits_total
      + (run_trk true (fun f a => f + a.pos.headD 0) TState.init
       [(0, ⟨[], []⟩), (0, ⟨[], []⟩), (1, ⟨[2], []⟩)]).misses_total = 3 :=
  (C7_tracking_counters true (fun f a => f + a.pos.headD 0)
    [(0, ⟨[], []⟩), (0, ⟨[], []⟩), (1, ⟨[2], []⟩)]).1

/-! ## Distributed backend election and failover
(`src/rememo/templates/shared.py`) -/

/-- A network action attempted by a node during election. -/
inductive NetAction
  | connectAttempt
  | bindAttempt
deriving DecidableEq, Repr

/-- The role a node ends up in. -/
inductive Role
  | host
  | client
deriving DecidableEq, Repr

/-- `RemoteCacheWrapper._connect_or_establish_manager` (shared.py lines
63-70): try `_connect` first; only when the connection is refused (no server
bound at the address) does `create_server` (lines 56-61) bind a new
`CacheServer`, after which the node connects to its own server.
`hostExists` says whether some process already holds the bound address; the
result is the node's final role and the ordered trace of its network
attempts. -/
def connect_or_establish (hostExists : Bool) : Role × List NetAction :=
  if hostExists then
    (.client, [.connectAttempt])
  else
    (.host, [.connectAttempt, .bindAttempt, .connectAttempt])

/-- The retry skeleton of `RemoteCacheWrapper._handle_remote_call` (lines
98-109): `attempt1`/`attempt2` are the wrapped operation's outcomes before
and after the single re-election (`none` = connection refused).  On a first
failure the node re-runs `_connect_or_establish_manager` exactly once and
retries; the retry's outcome — success or failure — propagates.  The `Bool`
records whether re-election ran. -/
def remote_call_retry {α : Type} (attempt1 attempt2 : Option α) :
    Option α × Bool :=
  match attempt1 with
  | some v => (some v, false)
  | none => (attempt2, true)

/-! ## `get_result` and `memoized` with raising collaborators
(`src/rememo/memoizer.py`) -/

/-- Exception identity (exceptions are compared by payload only). -/
abbrev Err := Nat

/-- `Memoizer.get_result` where the canonicalizer `pp` (the bookkeeping
serialization step, `process_params`) and the user function `fsem` may
raise.  The returned state keeps every mutation made before the exception
escaped: the empty per-function sub-store is created up front, an
invocation is logged even when the function raises, and nothing is stored
on error. -/
def get_resultE (pp : Args → Except Err Key) (fsem : Nat → Args → Except Err Nat)
    (s : MState) (f : Nat) (a : Args) : Except Err Nat × MState :=
  let s0 := if dmem s.results_cache f then s
            else { s with results_cache := dset s.results_cache f [] }
  match pp a with
  | .error e => (.error e, s0)
  | .ok params =>
    if dmem ((dget s0.results_cache f).getD []) params then
      (.ok ((dget ((dget s0.results_cache f).getD []) params).getD 0), s0)
    else
      match fsem f a with
      | .error e => (.error e, { s0 with calls := s0.calls ++ [(f, a)] })
      | .ok r =>
        let s1 : MState :=
          { results_cache :=
              (dset s0.results_cache f
                (dset ((dget s0.results_cache f).getD []) params r)),
            calls := s0.calls ++ [(f, a)] }
        (.ok ((dget ((dget s1.results_cache f).getD []) params).getD 0), s1)

/-- The wrapper returned by `Memoizer.memoized` (lines 149-175): route the
call through `get_result`; on ANY exception, log the error and fall back to
invoking the original function directly, bypassing the cache.  The direct
invocation is recorded in the ghost log and its outcome — value or
exception — is what the caller sees. -/
def memoized_wrapper (pp : Args → Except Err Key)
    (fsem : Nat → Args → Except Err Nat)
    (s : MState) (f : Nat) (a : Args) : Except Err Nat × MState :=
  match get_resultE pp fsem s f a with
  | (.ok v, s1) => (.ok v, s1)
  | (.error _, s1) => (fsem f a, { s1 with calls := s1.calls ++ [(f, a)] })

/-! ## `SharedMemoizer.remove_from_cache` (`src/rememo/templates/shared.py`) -/

/-- The Python exception class surfaced by a failing shared removal. -/
inductive PyErr
  | keyError
  | attrError
deriving DecidableEq, Repr

/-- The remote cache contents, keyed by serialized function identifiers. -/
abbrev SCache := List (Nat × List (Key × Nat))

/-- `SharedMemoizer.remove_from_cache` (shared.py lines 173-203) against the
remote cache.  Every access goes through the `RemoteCacheWrapper`, whose
`_handle_remote_call` preprocesses the key with
`key_preprocessor = serialize_function` (`ser` here) before the remote
round trip; sub-caches are read, mutated locally and written back whole.
The branches are `if` / `elif` / `else: raise KeyError`.  When the first
test fails and the reference carries no `__wrapped__` back-reference,
`wrapped_func` is `None`, and evaluating `wrapped_func in self.results_cache`
first serializes the key: `serialize_function(None)` reads
`None.__module__` and raises `AttributeError` — not `KeyError`. -/
def shared_remove_from_cache (ser : Nat → Nat) (c : SCache) (r : FRef)
    (params : Option Key) : Except PyErr SCache :=
  match params with
  | some p =>
    if dmem c (ser r.fid) && dmem ((dget c (ser r.fid)).getD []) p then
      .ok (dset c (ser r.fid) (ddel ((dget c (ser r.fid)).getD []) p))
    else
      match r.wrapped with
      | none => .error .attrError
      | some w =>
        if dmem c (ser w) && dmem ((dget c (ser w)).getD []) p then
          .ok (dset c (ser w) (ddel ((dget c (ser w)).getD []) p))
        else .error .keyError
  | none =>
    if dmem c (ser r.fid) then .ok (ddel c (ser r.fid))
    else
      match r.wrapped with
      | none => .error .attrError
      | some w =>
        if dmem c (ser w) then .ok (ddel c (ser w))
        else .error .keyError

/-! ### Claim theorems C2, C3, C6, C10 -/

theorem dget2_ensure (rc : RCache) (f g : Nat) (k : Key) :
    dget2 (if dmem rc f then rc else dset rc f []) g k = dget2 rc g k := by
  by_cases hm : dmem rc f
  · rw [if_pos hm]
  · rw [if_neg hm]
    have hf : dget rc f = none := by
      rcases ho : dget rc f with _ | u
      · rfl
      · simp [dmem, ho] at hm
    exact dget2_dset_empty g k hf

theorem del_entry_step_noop {rc : RCache} {j : Nat} {k : Key}
    (h : dget2 rc j k = none) : del_entry_step rc j k = rc := by
  unfold del_entry_step
  rcases hf : dget rc j with _ | sub
  · rw [if_neg]
    simp [dmem, hf]
  · have hsub : dget sub k = none := by
      simpa [dget2, hf] using h
    rw [if_neg]
    simp [dmem, hf, hsub]

theorem del_func_step_noop {rc : RCache} {j : Nat}
    (h : dmem rc j = false) : del_func_step rc j = rc := by
  unfold del_func_step
  rw [if_neg]
  simp [h]

/-- C2 counterexample: the node's first network action in an election is
always a connect attempt, never a bind; and a node that ends up Client
(because a Host already exists) never attempts a bind at all — refuting
"it first attempts to bind the address as Host, and only if that bind fails
does it fall back to the Client role". -/
theorem C2_bind_first_counterexample :
    (connect_or_establish false).2.head? ≠ some NetAction.bindAttempt ∧
    (connect_or_establish true).1 = Role.client ∧
    NetAction.bindAttempt ∉ (connect_or_establish true).2 := by
  refine ⟨?_, rfl, ?_⟩
  · decide
  · decide

/-- C2 (amended): on election — at startup or during failover — a node first
attempts to CONNECT as Client; only if the connection is refused does it
bind the address as Host (becoming the new Host) and connect to its own
server.  A bind is attempted exactly when no Host exists.  A failed remote
operation triggers exactly one re-election followed by one retry, whose
outcome — success or failure — propagates. -/
theorem C2_election_connect_first :
    connect_or_establish true = (Role.client, [NetAction.connectAttempt]) ∧
    connect_or_establish false
      = (Role.host,
         [NetAction.connectAttempt, NetAction.bindAttempt, NetAction.connectAttempt]) ∧
    (∀ b, (connect_or_establish b).2.head? = some NetAction.connectAttempt) ∧
    (∀ b, NetAction.bindAttempt ∈ (connect_or_establish b).2 ↔ b = false) ∧
    (∀ (v : Nat) (a2 : Option Nat), remote_call_retry (some v) a2 = (some v, false)) ∧
    (∀ (a2 : Option Nat), remote_call_retry none a2 = (a2, true)) := by
  refine ⟨rfl, rfl, ?_, ?_, ?_, ?_⟩
  · intro b
    cases b <;> rfl
  · intro b
    cases b <;> decide
  · intro v a2
    rfl
  · intro a2
    rfl

/-- C3: if the bookkeeping serialization step inside `get_result` fails (the
user function does not), the wrapper returns the direct, uncached invocation
of the function — the cache is bypassed, no entry is added, and the function
is invoked once; if the (deterministic) user function itself raises on an
uncached call, the exception reaches the wrapper's caller undiminished. -/
theorem C3_wrapper_resilience (pp : Args → Except Err Key)
    (fsem : Nat → Args → Except Err Nat) (s : MState) (f : Nat) (a : Args) :
    (∀ e v, pp a = .error e → fsem f a = .ok v →
      (memoized_wrapper pp fsem s f a).1 = .ok v ∧
      (∀ g k, dget2 (memoized_wrapper pp fsem s f a).2.results_cache g k
        = dget2 s.results_cache g k) ∧
      (memoized_wrapper pp fsem s f a).2.calls = s.calls ++ [(f, a)]) ∧
    (∀ e params, pp a = .ok params →
      dget2 s.results_cache f params = none →
      fsem f a = .error e →
      (memoized_wrapper pp fsem s f a).1 = .error e ∧
      (memoized_wrapper pp fsem s f a).2.calls = s.calls ++ [(f, a), (f, a)]) := by
  constructor
  · intro e v hpp hok
    have hshape : memoized_wrapper pp fsem s f a =
        (fsem f a,
         { (if dmem s.results_cache f then s
            else { s with results_cache := dset s.results_cache f [] }) with
           calls := (if dmem s.results_cache f then s
            else { s with results_cache := dset s.results_cache f [] }).calls
             ++ [(f, a)] }) := by
      unfold memoized_wrapper get_resultE
      rw [hpp]
    rw [hshape, hok]
    refine ⟨rfl, ?_, ?_⟩
    · intro g k
      by_cases hm : dmem s.results_cache f
      · simp only [hm, if_true]
      · simp only [hm, Bool.false_eq_true, if_false]
        have hf : dget s.results_cache f = none := by
          rcases ho : dget s.results_cache f with _ | u
          · rfl
          · simp [dmem, ho] at hm
        exact dget2_dset_empty g k hf
    · by_cases hm : dmem s.results_cache f
      · simp only [hm, if_true]
      · simp only [hm, Bool.false_eq_true, if_false]
  · intro e params hpp hmiss herr
    simp only [dget2] at hmiss
    have hmiss0 : dmem ((dget (if dmem s.results_cache f then s
        else { s with results_cache := dset s.results_cache f [] }).results_cache
          f).getD []) params = false := by
      by_cases hm : dmem s.results_cache f
      · simp only [hm, if_true]
        simp [dmem, hmiss]
      · simp only [hm, Bool.false_eq_true, if_false]
        simp [dmem, dget_dset_self, dget]
    have hshape : memoized_wrapper pp fsem s f a =
        (fsem f a,
         { (if dmem s.results_cache f then s
            else { s with results_cache := dset s.results_cache f [] }) with
           calls := (if dmem s.results_cache f then s
            else { s with results_cache := dset s.results_cache f [] }).calls
             ++ [(f, a)] ++ [(f, a)] }) := by
      unfold memoized_wrapper get_resultE
      rw [hpp]
      simp only [hmiss0, Bool.false_eq_true, if_false, herr]
    rw [hshape, herr]
    refine ⟨rfl, ?_⟩
    by_cases hm : dmem s.results_cache f
    · simp only [hm, if_true]
      simp
    · simp only [hm, Bool.false_eq_true, if_false]
      simp

/-- Witness for C3: a failing serializer with a pure function, and a raising
user function on an empty cache. -/
theorem C3_wrapper_resilience_witness :
    (memoized_wrapper (fun _ => Except.error 7) (fun _ _ => Except.ok 42)
      MState.init 0 ⟨[1], []⟩).1 = Except.ok 42 ∧
    (memoized_wrapper (fun a => Except.ok (process_params true a))
      (fun _ _ => Except.error 9) MState.init 0 ⟨[1], []⟩).1 = Except.error 9 :=
  ⟨((C3_wrapper_resilience (fun _ => Except.error 7) (fun _ _ => Except.ok 42)
      MState.init 0 ⟨[1], []⟩).1 7 42 rfl rfl).1,
   ((C3_wrapper_resilience (fun a => Except.ok (process_params true a))
      (fun _ _ => Except.error 9) MState.init 0 ⟨[1], []⟩).2 9
      (process_params true ⟨[1], []⟩) rfl (by decide) rfl).1⟩

/-- C10: when the user function raises inside a direct `get_result` call on a
previously unseen function, the exception propagates, no result entry is
stored (so an identical retry invokes the function again), but the state is
not fully rolled back: an empty per-function sub-store has been created. -/
theorem C10_error_leaves_empty_substore (pp : Args → Except Err Key)
    (fsem : Nat → Args → Except Err Nat) (s : MState) (f : Nat) (a : Args)
    (params : Key) (e : Err)
    (hpp : pp a = .ok params)
    (habs : dget s.results_cache f = none)
    (herr : fsem f a = .error e) :
    (get_resultE pp fsem s f a).1 = .error e ∧
    (get_resultE pp fsem s f a).2.results_cache = dset s.results_cache f [] ∧
    dget2 (get_resultE pp fsem s f a).2.results_cache f params = none ∧
    (get_resultE pp fsem s f a).2.calls = s.calls ++ [(f, a)] ∧
    dmem s.results_cache f = false ∧
    dmem (get_resultE pp fsem s f a).2.results_cache f = true ∧
    (get_resultE pp fsem (get_resultE pp fsem s f a).2 f a).1 = .error e ∧
    (get_resultE pp fsem (get_resultE pp fsem s f a).2 f a).2.calls
      = s.calls ++ [(f, a), (f, a)] := by
  have hm : dmem s.results_cache f = false := by
    simp [dmem, habs]
  have hsub : dget (dset s.results_cache f ([] : List (Key × Nat))) f = some [] :=
    dget_dset_self _ _ _
  have hshape : get_resultE pp fsem s f a =
      (.error e,
       { results_cache := dset s.results_cache f [],
         calls := s.calls ++ [(f, a)] }) := by
    unfold get_resultE
    rw [hpp]
    simp [dmem, habs, dget_dset_self, dget, herr]
  refine ⟨by rw [hshape], by rw [hshape], ?_, by rw [hshape], hm, ?_, ?_, ?_⟩
  · rw [hshape]
    simp [dget2, hsub, dget]
  · rw [hshape]
    simp [dmem, hsub]
  · rw [hshape]
    unfold get_resultE
    rw [hpp]
    simp [dmem, dget_dset_self, dget, herr]
  · rw [hshape]
    unfold get_resultE
    rw [hpp]
    simp [dmem, dget_dset_self, dget, herr]

/-- Witness for C10 on an empty cache with an always-raising function. -/
theorem C10_error_leaves_empty_substore_witness :
    (fun (a : Args) => (Except.ok (process_params true a) : Except Err Key)) ⟨[1], []⟩
        = Except.ok (process_params true ⟨[1], []⟩) ∧
    dget MState.init.results_cache 0 = none ∧
    (fun (_ : Nat) (_ : Args) => (Except.error 5 : Except Err Nat)) 0 ⟨[1], []⟩
        = Except.error 5 ∧
    ((get_resultE (fun a => Except.ok (process_params true a))
        (fun _ _ => Except.error 5) MState.init 0 ⟨[1], []⟩).1 = Except.error 5 ∧
     (get_resultE (fun a => Except.ok (process_params true a))
        (fun _ _ => Except.error 5) MState.init 0 ⟨[1], []⟩).2.results_cache
       = dset MState.init.results_cache 0 [] ∧
     dget2 (get_resultE (fun a => Except.ok (process_params true a))
        (fun _ _ => Except.error 5) MState.init 0 ⟨[1], []⟩).2.results_cache
       0 (process_params true ⟨[1], []⟩) = none ∧
     (get_resultE (fun a => Except.ok (process_params true a))
        (fun _ _ => Except.error 5) MState.init 0 ⟨[1], []⟩).2.calls
       = MState.init.calls ++ [(0, ⟨[1], []⟩)] ∧
     dmem MState.init.results_cache 0 = false ∧
     dmem (get_resultE (fun a => Except.ok (process_params true a))
        (fun _ _ => Except.error 5) MState.init 0 ⟨[1], []⟩).2.results_cache 0 = true ∧
     (get_resultE (fun a => Except.ok (process_params true a))
        (fun _ _ => Except.error 5)
        (get_resultE (fun a => Except.ok (process_params true a))
          (fun _ _ => Except.error 5) MState.init 0 ⟨[1], []⟩).2 0 ⟨[1], []⟩).1
       = Except.error 5 ∧
     (get_resultE (fun a => Except.ok (process_params true a))
        (fun _ _ => Except.error 5)
        (get_resultE (fun a => Except.ok (process_params true a))
          (fun _ _ => Except.error 5) MState.init 0 ⟨[1], []⟩).2 0 ⟨[1], []⟩).2.calls
       = MState.init.calls ++ [(0, ⟨[1], []⟩), (0, ⟨[1], []⟩)]) :=
  ⟨rfl, rfl, rfl,
   C10_error_leaves_empty_substore (fun a => Except.ok (process_params true a))
     (fun _ _ => Except.error 5) MState.init 0 ⟨[1], []⟩
     (process_params true ⟨[1], []⟩) 5 rfl rfl rfl⟩

/-- C6 counterexample: with an empty shared cache and a plain function
reference (no `__wrapped__` back-reference), `SharedMemoizer.remove_from_cache`
does raise — but the exception is the serializer's `AttributeError` from
`serialize_function(None)`, not the claimed `KeyError`. -/
theorem C6_plain_ref_counterexample :
    shared_remove_from_cache (fun x => x) [] ⟨0, none⟩ none
      = Except.error PyErr.attrError ∧
    shared_remove_from_cache (fun x => x) [] ⟨0, none⟩ none
      ≠ Except.error PyErr.keyError ∧
    shared_remove_from_cache (fun x => x) [] ⟨0, none⟩ (some ([], []))
      = Except.error PyErr.attrError := by
  refine ⟨rfl, ?_, rfl⟩
  intro h
  have h' : (Except.error PyErr.attrError : Except PyErr SCache)
      = Except.error PyErr.keyError := h
  exact PyErr.noConfusion (Except.error.inj h')

/-- C6 (amended): removing an absent function or entry from the local
`Memoizer` is a silent no-op leaving the state unchanged;
`SharedMemoizer.remove_from_cache` raises on an absent entry — `KeyError`
when the reference carries an unwrapped back-reference, but for a plain
reference the membership test of the absent back-reference fails first,
inside the key serializer, with `AttributeError`. -/
theorem C6_remove_absent_behaviour (s : MState) (r : FRef) (ser : Nat → Nat)
    (c : SCache) :
    (∀ k, dget2 s.results_cache r.fid k = none →
      (∀ w, r.wrapped = some w → dget2 s.results_cache w k = none) →
      remove_from_cache s r (some k) = s) ∧
    (dmem s.results_cache r.fid = false →
      (∀ w, r.wrapped = some w → dmem s.results_cache w = false) →
      remove_from_cache s r none = s) ∧
    (∀ k, dget2 c (ser r.fid) k = none →
      (∀ w, r.wrapped = some w → dget2 c (ser w) k = none) →
      shared_remove_from_cache ser c r (some k)
        = Except.error (if r.wrapped.isSome then PyErr.keyError else PyErr.attrError)) ∧
    (dmem c (ser r.fid) = false →
      (∀ w, r.wrapped = some w → dmem c (ser w) = false) →
      shared_remove_from_cache ser c r none
        = Except.error (if r.wrapped.isSome then PyErr.keyError else PyErr.attrError)) := by
  refine ⟨?_, ?_, ?_, ?_⟩
  · intro k h1 h2
    rcases hw : r.wrapped with _ | w
    · simp only [remove_from_cache, hw]
      rw [del_entry_step_noop h1]
    · simp only [remove_from_cache, hw]
      rw [del_entry_step_noop h1, del_entry_step_noop (h2 w hw)]
  · intro h1 h2
    rcases hw : r.wrapped with _ | w
    · simp only [remove_from_cache, hw]
      rw [del_func_step_noop h1]
    · simp only [remove_from_cache, hw]
      rw [del_func_step_noop h1, del_func_step_noop (h2 w hw)]
  · intro k h1 h2
    simp only [shared_remove_from_cache]
    have hc1 : (dmem c (ser r.fid) && dmem ((dget c (ser r.fid)).getD []) k) = false := by
      rcases hf : dget c (ser r.fid) with _ | sub
      · simp [dmem, hf]
      · have hn : dget sub k = none := by
          simpa [dget2, hf] using h1
        simp [dmem, hf, hn]
    rw [hc1]
    simp only [Bool.false_eq_true, if_false]
    rcases hw : r.wrapped with _ | w
    · rfl
    · have hc2 : (dmem c (ser w) && dmem ((dget c (ser w)).getD []) k) = false := by
        rcases hf : dget c (ser w) with _ | sub
        · simp [dmem, hf]
        · have hn : dget sub k = none := by
            simpa [dget2, hf] using h2 w hw
          simp [dmem, hf, hn]
      dsimp only
      simp [hc2]
  · intro h1 h2
    simp only [shared_remove_from_cache]
    rw [h1]
    simp only [Bool.false_eq_true, if_false]
    rcases hw : r.wrapped with _ | w
    · rfl
    · dsimp only
      simp [h2 w hw]

/-- Witness for C6 (amended): local no-op on an absent entry; shared
`KeyError` for a wrapper reference; shared `AttributeError` for a plain
reference. -/
theorem C6_remove_absent_behaviour_witness :
    remove_from_cache ⟨[(5, [(([2], []), 7)])], []⟩ ⟨0, none⟩ (some ([1], []))
      = (⟨[(5, [(([2], []), 7)])], []⟩ : MState) ∧
    shared_remove_from_cache (fun x => x) [] ⟨0, some 3⟩ none
      = Except.error PyErr.keyError ∧
    shared_remove_from_cache (fun x => x) [] ⟨0, none⟩ none
      = Except.error PyErr.attrError := by
  refine ⟨?_, ?_, ?_⟩
  · exact (C6_remove_absent_behaviour ⟨[(5, [(([2], []), 7)])], []⟩ ⟨0, none⟩
      (fun x => x) []).1 ([1], []) (by decide) (by intro w hw; cases hw)
  · have h := (C6_remove_absent_behaviour ⟨[], []⟩ ⟨0, some 3⟩ (fun x => x) []).2.2.2
      (by decide) (by intro w hw; rfl)
    simpa using h
  · have h := (C6_remove_absent_behaviour ⟨[], []⟩ ⟨0, none⟩ (fun x => x) []).2.2.2
      (by decide) (by intro w hw; cases hw)
    simpa using h

end Rememo
